import Mathlib

/-!
# Verification of the language classifier and lightweight diagnostics engine

Shallow embedding of `src/LanguageDetector.ts` and `src/ValidationManager.ts`.

Strings are modelled as lists of unicode characters (`List Char`); the
JavaScript host facilities the code delegates to are modelled as explicit
parameters at the exact boundary where the source calls them:

* `RegExp.test` (used by `LanguageDetector.detectLanguage`): each signature's
  regular expressions are opaque to the classifier, which only observes a
  boolean "does pattern `p` of signature `name` match the text" — modelled as
  an oracle `test : String → Nat → Bool` fixed for the analysed text.
* `JSON.parse` (used by `validateJSON`): modelled as an optional
  `JsonParseError` carrying the raw message and the character offset recovered
  from the message by the `/at position (\d+)/` match (`none` when the match
  fails).
* `js-yaml`'s `load` (used by `validateYAML`): modelled as an optional
  `YamlParseError` carrying the optional `mark` (0-based line/column) and the
  `reason`/`message` strings.

Everything else — line splitting, trimming, quote counting, bracket depth
tracking, keyword matching, the score accumulation map and its iteration
order — is translated directly from the source.  JavaScript's `\s` (and
`trim`) is modelled by `Char.isWhitespace`, `\w` by ASCII alphanumerics plus
underscore, both exact on ASCII input.
-/

/-- Severity of a finding (`"error" | "warning"` in the source). -/
inductive Severity where
  | error
  | warning
deriving DecidableEq

/-- `ValidationError` from `src/ValidationManager.ts`. -/
structure ValidationError where
  line : Nat
  column : Nat
  message : String
  severity : Severity
deriving DecidableEq

/-! ## List/string utilities mirroring the JavaScript primitives -/

/-- JavaScript `code.split('\n')` on a character list (always non-empty,
keeps empty segments). -/
def splitOnNl : List Char → List (List Char)
  | [] => [[]]
  | c :: rest =>
    let r := splitOnNl rest
    if c = '\n' then [] :: r else (c :: r.headD []) :: r.tail

/-- Remove trailing whitespace (second half of JavaScript `trim`). -/
def dropTrailingWs (l : List Char) : List Char :=
  (l.reverse.dropWhile Char.isWhitespace).reverse

/-- JavaScript `line.trim()`. -/
def trimL (l : List Char) : List Char :=
  dropTrailingWs (l.dropWhile Char.isWhitespace)

/-- Index of the last occurrence of a character (JavaScript `lastIndexOf`,
with `none` standing for `-1`). -/
def lastIdxOf (c : Char) : List Char → Option Nat
  | [] => none
  | x :: rest =>
    match lastIdxOf c rest with
    | some k => some (k + 1)
    | none => if x = c then some 0 else none

/-- `line.lastIndexOf(c) + 1` as computed in the source (JavaScript yields
`0` when the character is absent, because `lastIndexOf` returns `-1`). -/
def lastIdxPlus1 (c : Char) (l : List Char) : Nat :=
  match lastIdxOf c l with
  | some k => k + 1
  | none => 0

/-- Does `l` start with the pattern `pat`? -/
def startsWithL : List Char → List Char → Bool
  | [], _ => true
  | _ :: _, [] => false
  | p :: ps, c :: cs => p == c && startsWithL ps cs

/-- Index of the first occurrence of the substring `pat` (JavaScript
`indexOf`, with `none` standing for `-1`). -/
def firstSubstrIdx (pat : List Char) : List Char → Option Nat
  | [] => if startsWithL pat [] then some 0 else none
  | c :: rest =>
    if startsWithL pat (c :: rest) then some 0
    else (firstSubstrIdx pat rest).map (· + 1)

/-- Number of matches of the regex `/(?<!\\)q/g`: occurrences of `q` whose
immediately preceding character is not a backslash.  The first parameter is
the previous character (`none` at the start of the line). -/
def countUnescapedFrom (q : Char) : Option Char → List Char → Nat
  | _, [] => 0
  | prev, c :: rest =>
    (if c = q ∧ prev ≠ some '\\' then 1 else 0) + countUnescapedFrom q (some c) rest

/-- Number of matches of `/(?<!\\)q/g` on a whole line. -/
def countUnescaped (q : Char) (l : List Char) : Nat :=
  countUnescapedFrom q none l

/-- Number of matches of the regex `/"""|'''/g`: a global scan consuming
three characters per match, one otherwise. -/
def countTriples : List Char → Nat
  | '"' :: '"' :: '"' :: rest => countTriples rest + 1
  | '\'' :: '\'' :: '\'' :: rest => countTriples rest + 1
  | _ :: rest => countTriples rest
  | [] => 0

/-- Net open/close depth for one bracket kind over one line
(the `parenDepth`/`bracketDepth`/`braceDepth` loop in the source). -/
def netDepth (openC closeC : Char) (l : List Char) : Int :=
  l.foldl (fun d c => if c = openC then d + 1 else if c = closeC then d - 1 else d) 0

/-- JavaScript `line.search(/\S/)`: index of the first non-whitespace
character (`none` standing for `-1`). -/
def firstNonWsIdx : List Char → Option Nat
  | [] => none
  | c :: rest =>
    if Char.isWhitespace c then (firstNonWsIdx rest).map (· + 1) else some 0

/-- JavaScript `\w`: ASCII letters, digits and underscore. -/
def isWordChar (c : Char) : Bool :=
  c.isAlphanum || c == '_'

/-- Match `kw` followed by a word boundary (`\bkw\b`-style right edge):
the characters of `kw` followed by end-of-input or a non-word character. -/
def matchesKeyword : List Char → List Char → Bool
  | [], [] => true
  | [], c :: _ => !isWordChar c
  | _ :: _, [] => false
  | k :: ks, c :: cs => k == c && matchesKeyword ks cs

/-- The control-flow keywords of the
`/^\s*(if|elif|else|for|while|def|class|with|try|except|finally)\b/` check. -/
def pyKeywords : List (List Char) :=
  [['i', 'f'], ['e', 'l', 'i', 'f'], ['e', 'l', 's', 'e'], ['f', 'o', 'r'],
   ['w', 'h', 'i', 'l', 'e'], ['d', 'e', 'f'], ['c', 'l', 'a', 's', 's'],
   ['w', 'i', 't', 'h'], ['t', 'r', 'y'], ['e', 'x', 'c', 'e', 'p', 't'],
   ['f', 'i', 'n', 'a', 'l', 'l', 'y']]

/-- The regex above: optional leading whitespace, then one of the keywords,
then a word boundary. -/
def startsControlKw (l : List Char) : Bool :=
  pyKeywords.any (fun kw => matchesKeyword kw (l.dropWhile Char.isWhitespace))

/-- Does the trimmed line end with the given character
(JavaScript `endsWith` for a one-character suffix)? -/
def endsWithChar (c : Char) (l : List Char) : Bool :=
  match l.getLast? with
  | some x => x == c
  | none => false

/-- JavaScript `line.includes('->')`. -/
def hasArrow : List Char → Bool
  | '-' :: '>' :: _ => true
  | _ :: rest => hasArrow rest
  | [] => false

/-- Tail of the regex `/\bdef\s+\w+\s*\([^)]*\)\s*[^:]/` after the literal
`def`: at least one whitespace, at least one word character, optional
whitespace, `(`, any characters up to the first `)`, `)`, then optional
whitespace followed by one character other than `:`.  Because the character
classes `\s`, `\w`, `[^)]` and `[^:]` make every greedy choice forced, the
existence of a backtracking match is equivalent to this deterministic scan. -/
def matchAfterDef (cs : List Char) : Bool :=
  match cs with
  | [] => false
  | c :: _ =>
    Char.isWhitespace c &&
    (let r1 := cs.dropWhile Char.isWhitespace
     match r1 with
     | [] => false
     | d :: _ =>
       isWordChar d &&
       (let r3 := (r1.dropWhile isWordChar).dropWhile Char.isWhitespace
        match r3 with
        | '(' :: r4 =>
          (match r4.dropWhile (fun x => x ≠ ')') with
           | ')' :: r6 =>
             (match r6 with
              | e :: _ => e ≠ ':'
              | [] => false)
           | _ => false)
        | _ => false))

/-- Word-boundary test for the position before `def`. -/
def defBoundaryOk : Option Char → Bool
  | none => true
  | some p => !isWordChar p

/-- Unanchored test of `/\bdef\s+\w+\s*\([^)]*\)\s*[^:]/` (the first
parameter is the character preceding the current position). -/
def hasDefPat : Option Char → List Char → Bool
  | _, [] => false
  | prev, c :: rest =>
    (c == 'd' && defBoundaryOk prev &&
      (match rest with
       | 'e' :: 'f' :: tail => matchAfterDef tail
       | _ => false)) ||
    hasDefPat (some c) rest

/-! ## `ValidationManager.validateJSON` -/

/-- Outcome of `JSON.parse` throwing: the raw error message together with the
character offset recovered from it by the `/at position (\d+)/` match
(`none` when the message carries no recoverable offset). -/
structure JsonParseError where
  message : String
  position : Option Nat
deriving DecidableEq

/-- Characters before the first occurrence of the substring `pat`
(the whole list when `pat` does not occur). -/
def takeBeforeSub (pat : List Char) : List Char → List Char
  | [] => []
  | c :: rest =>
    if startsWithL pat (c :: rest) then [] else c :: takeBeforeSub pat rest

/-- `error.message.split(' at position')[0]`: the part of the message before
the first occurrence of `" at position"` (the whole message when absent). -/
def jsMsgBefore (msg : String) : String :=
  ⟨takeBeforeSub [' ', 'a', 't', ' ', 'p', 'o', 's', 'i', 't', 'i', 'o', 'n']
    msg.data⟩

/-- `ValidationManager.validateJSON`, with the `JSON.parse` outcome supplied
as `parseError` (`none` = the text parses as valid strict JSON). -/
def validateJSON (parseError : Option JsonParseError) (code : String) :
    List ValidationError :=
  match parseError with
  | none => []
  | some err =>
    match err.position with
    | some position =>
      let lines := splitOnNl (code.data.take position)
      [⟨lines.length, (lines.getLastD []).length + 1, jsMsgBefore err.message,
        .error⟩]
    | none => [⟨1, 1, err.message, .error⟩]

/-! ## `ValidationManager.validateYAML` -/

/-- js-yaml error mark: 0-based line and column. -/
structure YamlMark where
  line : Nat
  column : Nat
deriving DecidableEq

/-- Outcome of `js-yaml`'s `load` throwing. -/
structure YamlParseError where
  mark : Option YamlMark
  reason : Option String
  message : String
deriving DecidableEq

/-- `error.reason || error.message` (the empty string is falsy). -/
def yamlMsgOf (err : YamlParseError) : String :=
  match err.reason with
  | some r => if r ≠ "" then r else err.message
  | none => err.message

/-- `ValidationManager.validateYAML`, with the `js-yaml` outcome supplied as
`parseError` (`none` = the text parses).  The two conditionals reproduce the
JavaScript truthiness tests `error.mark?.line ? error.mark.line + 1 : 1`
(a present but zero line/column is falsy) and `error.reason ||
error.message`. -/
def validateYAML (parseError : Option YamlParseError) (_code : String) :
    List ValidationError :=
  match parseError with
  | none => []
  | some err =>
    let line := match err.mark with
      | some m => if m.line ≠ 0 then m.line + 1 else 1
      | none => 1
    let column := match err.mark with
      | some m => if m.column ≠ 0 then m.column + 1 else 1
      | none => 1
    [⟨line, column, yamlMsgOf err, .error⟩]

/-! ## `ValidationManager.validatePython` -/

/-- Column of the unclosed-triple-quote finding:
`line.indexOf('"""') >= 0 ? line.indexOf('"""') + 1 : line.indexOf("'''") + 1`. -/
def unclosedTripleCol (l : List Char) : Nat :=
  match firstSubstrIdx ['"', '"', '"'] l with
  | some k => k + 1
  | none =>
    match firstSubstrIdx ['\'', '\'', '\''] l with
    | some k => k + 1
    | none => 0

/-- The unclosed-string checks of `validatePython` (an `else if` chain:
triple quotes first, then single, then double). -/
def pyQuoteErrors (n : Nat) (l : List Char) : List ValidationError :=
  if countTriples l % 2 ≠ 0 then
    [⟨n, unclosedTripleCol l, "Unclosed triple-quoted string", .error⟩]
  else if countUnescaped '\'' l % 2 ≠ 0 then
    [⟨n, lastIdxPlus1 '\'' l, "Unclosed string (single quote)", .error⟩]
  else if countUnescaped '"' l % 2 ≠ 0 then
    [⟨n, lastIdxPlus1 '"' l, "Unclosed string (double quote)", .error⟩]
  else []

/-- One of the three per-line bracket checks of `validatePython`. -/
def pyDepthErrors (n : Nat) (l : List Char) (openC closeC : Char)
    (msgOpen msgClose : String) : List ValidationError :=
  let d := netDepth openC closeC l
  if d ≠ 0 then
    [⟨n, if 0 < d then lastIdxPlus1 openC l else lastIdxPlus1 closeC l,
      if 0 < d then msgOpen else msgClose, .error⟩]
  else []

/-- Indentation-width warning of `validatePython`. -/
def pyIndentWarn (n : Nat) (l : List Char) : List ValidationError :=
  match firstNonWsIdx l with
  | some k =>
    if 0 < k ∧ k % 4 ≠ 0 then
      [⟨n, 1, "Indentation should be a multiple of 4 spaces", .warning⟩]
    else []
  | none => []

/-- Missing-colon check after a control-flow keyword. -/
def pyColonError (n : Nat) (l : List Char) : List ValidationError :=
  if startsControlKw l && !endsWithChar ':' (trimL l) then
    [⟨n, l.length, "Missing colon at end of statement", .error⟩]
  else []

/-- The `/\bdef.../g` function-definition check. -/
def pyDefError (n : Nat) (l : List Char) : List ValidationError :=
  if hasDefPat none l && !hasArrow l then
    [⟨n,
      (match firstSubstrIdx ['d', 'e', 'f'] l with
       | some k => k + 1
       | none => 0),
      "Function definition missing colon", .error⟩]
  else []

/-- The skip condition of the line loop:
`line.trim() === '' || line.trim().startsWith('#')`. -/
def pySkipped (l : List Char) : Bool :=
  (trimL l).isEmpty || startsWithL ['#'] (trimL l)

/-- All findings `validatePython` produces for the line `l` (1-based number
`n`), in emission order; blank lines and `#` comments are skipped. -/
def pyLineErrors (n : Nat) (l : List Char) : List ValidationError :=
  if pySkipped l then []
  else
    pyQuoteErrors n l ++
    pyDepthErrors n l '(' ')' "Unclosed parenthesis" "Unmatched closing parenthesis" ++
    pyDepthErrors n l '[' ']' "Unclosed bracket" "Unmatched closing bracket" ++
    pyDepthErrors n l '{' '}' "Unclosed brace" "Unmatched closing brace" ++
    pyIndentWarn n l ++
    pyColonError n l ++
    pyDefError n l

/-- The line loop of `validatePython` (`i` is the 0-based index of the first
line of `lines`). -/
def pyGo (i : Nat) : List (List Char) → List ValidationError
  | [] => []
  | l :: rest => pyLineErrors (i + 1) l ++ pyGo (i + 1) rest

/-- `ValidationManager.validatePython`. -/
def validatePython (code : String) : List ValidationError :=
  pyGo 0 (splitOnNl code.data)

/-! ## `ValidationManager.validateCSS` -/

/-- The missing-semicolon heuristic of `validateCSS`, evaluated with the
brace depth `depth` current after the line's own braces (and after a
possible reset). -/
def cssSemicolonWarn (n : Nat) (depth : Int) (l : List Char) :
    List ValidationError :=
  let trimmed := trimL l
  if !trimmed.isEmpty && decide (0 < depth) &&
     !startsWithL ['/', '*'] trimmed &&
     !startsWithL ['/', '*'] trimmed.reverse &&
     !endsWithChar '{' trimmed && !endsWithChar '}' trimmed &&
     !endsWithChar ';' trimmed &&
     trimmed.any (fun c => c == ':') &&
     !startsWithL ['@'] trimmed then
    [⟨n, l.length, "Missing semicolon at end of declaration", .warning⟩]
  else []

/-- The line loop of `validateCSS`: carries the cumulative brace depth,
reports a negative depth immediately and resets it to zero, and returns the
residual depth. -/
def cssGo (i : Nat) (depth : Int) :
    List (List Char) → List ValidationError × Int
  | [] => ([], depth)
  | l :: rest =>
    let d := depth + netDepth '{' '}' l
    let unmatched : List ValidationError :=
      if d < 0 then [⟨i + 1, lastIdxPlus1 '}' l, "Unmatched closing brace", .error⟩]
      else []
    let d1 : Int := if d < 0 then 0 else d
    let r := cssGo (i + 1) d1 rest
    (unmatched ++ cssSemicolonWarn (i + 1) d1 l ++ r.1, r.2)

/-- `ValidationManager.validateCSS`. -/
def validateCSS (code : String) : List ValidationError :=
  let lines := splitOnNl code.data
  let r := cssGo 0 0 lines
  r.1 ++
    (if 0 < r.2 then
       [⟨lines.length, 1, toString r.2 ++ " unclosed brace(s)", .error⟩]
     else [])

/-! ## `LanguageDetector` -/

/-- `LanguagePattern` from `src/LanguageDetector.ts`.  The regular
expressions themselves are opaque to the classifier: `patterns` keeps one
index per source pattern, in declaration order, and the oracle
`test : String → Nat → Bool` answers `pattern.test(code)` for pattern `p` of
the signature named `name` on the (fixed) analysed text. -/
structure LanguagePattern where
  name : String
  monacoLanguage : String
  patterns : List Nat
  weight : Nat
deriving DecidableEq

/-- The signature table of `LanguageDetector`, in declaration order, with
the pattern count and weight of each signature. -/
def langPatterns : List LanguagePattern :=
  [⟨"TypeScript", "typescript", List.range 6, 3⟩,
   ⟨"TSX", "typescript", List.range 4, 3⟩,
   ⟨"JavaScript", "javascript", List.range 8, 2⟩,
   ⟨"JSX", "javascript", List.range 5, 2⟩,
   ⟨"Python", "python", List.range 8, 3⟩,
   ⟨"Java", "java", List.range 7, 3⟩,
   ⟨"C#", "csharp", List.range 7, 3⟩,
   ⟨"C++", "cpp", List.range 7, 3⟩,
   ⟨"C", "c", List.range 7, 2⟩,
   ⟨"Go", "go", List.range 8, 3⟩,
   ⟨"Rust", "rust", List.range 7, 3⟩,
   ⟨"Ruby", "ruby", List.range 7, 2⟩,
   ⟨"PHP", "php", List.range 7, 3⟩,
   ⟨"Swift", "swift", List.range 6, 2⟩,
   ⟨"Kotlin", "kotlin", List.range 6, 2⟩,
   ⟨"Scala", "scala", List.range 6, 2⟩,
   ⟨"Shell", "shell", List.range 7, 2⟩,
   ⟨"PowerShell", "powershell", List.range 6, 2⟩,
   ⟨"SQL", "sql", List.range 7, 3⟩,
   ⟨"HTML", "html", List.range 6, 2⟩,
   ⟨"CSS", "css", List.range 6, 2⟩,
   ⟨"SCSS", "scss", List.range 5, 3⟩,
   ⟨"JSON", "json", List.range 4, 2⟩,
   ⟨"YAML", "yaml", List.range 4, 2⟩,
   ⟨"XML", "xml", List.range 3, 2⟩,
   ⟨"Markdown", "markdown", List.range 6, 2⟩,
   ⟨"R", "r", List.range 5, 2⟩,
   ⟨"Lua", "lua", List.range 5, 2⟩,
   ⟨"Dart", "dart", List.range 5, 2⟩]

/-- The per-signature score loop: `score += lang.weight` for every pattern
that matches. -/
def sigScore (test : String → Nat → Bool) (lang : LanguagePattern) : Nat :=
  lang.patterns.foldl (fun s p => if test lang.name p then s + lang.weight else s) 0

/-- `scores.get(k) || 0` (JavaScript `Map.get` returns the first — unique —
entry; absent keys give `undefined`, hence `0`). -/
def mapGetD : List (String × Nat) → String → Nat → Nat
  | [], _, d => d
  | (k, v) :: rest, k', d => if k' = k then v else mapGetD rest k' d

/-- JavaScript `Map.set`: update the existing entry in place, or append a
new one at the end (iteration order is insertion order). -/
def mapSet : List (String × Nat) → String → Nat → List (String × Nat)
  | [], k, v => [(k, v)]
  | (k', v') :: rest, k, v =>
    if k' = k then (k, v) :: rest else (k', v') :: mapSet rest k v

/-- The signature loop of `detectLanguage`: accumulate each positive
signature score into the per-canonical-id `scores` map. -/
def buildScoresFrom (test : String → Nat → Bool) (m : List (String × Nat)) :
    List LanguagePattern → List (String × Nat)
  | [] => m
  | lang :: rest =>
    let s := sigScore test lang
    buildScoresFrom test
      (if 0 < s then mapSet m lang.monacoLanguage (mapGetD m lang.monacoLanguage 0 + s)
       else m) rest

/-- The `scores` map after the signature loop. -/
def buildScores (test : String → Nat → Bool) : List (String × Nat) :=
  buildScoresFrom test [] langPatterns

/-- The maximum-score scan over `scores.entries()` (insertion order),
starting from `maxScore = 0`, `detectedLanguage = "plaintext"`; a later
entry replaces the current one only on a strictly greater score. -/
def pickMaxFrom (acc : Nat × String) : List (String × Nat) → Nat × String
  | [] => acc
  | kv :: rest => pickMaxFrom (if acc.1 < kv.2 then (kv.2, kv.1) else acc) rest

/-- `LanguageDetector.detectLanguage`, with regex matching supplied by the
oracle `test` (see `LanguagePattern`). -/
def detectLanguage (test : String → Nat → Bool) (code : String) : String :=
  if (trimL code.data).isEmpty then "plaintext"
  else
    let best := pickMaxFrom (0, "plaintext") (buildScores test)
    if best.1 < 2 then "plaintext" else best.2

/-- The `extensionMap` table of `getLanguageFromExtension`. -/
def extensionMap : List (String × String) :=
  [("js", "javascript"), ("jsx", "javascript"), ("ts", "typescript"),
   ("tsx", "typescript"), ("json", "json"), ("py", "python"),
   ("pyw", "python"), ("python", "python"), ("java", "java"), ("c", "c"),
   ("cpp", "cpp"), ("cc", "cpp"), ("cxx", "cpp"), ("h", "c"), ("hpp", "cpp"),
   ("cs", "csharp"), ("php", "php"), ("rb", "ruby"), ("go", "go"),
   ("rs", "rust"), ("swift", "swift"), ("kt", "kotlin"), ("kts", "kotlin"),
   ("scala", "scala"), ("sh", "shell"), ("bash", "shell"), ("zsh", "shell"),
   ("ps1", "powershell"), ("sql", "sql"), ("r", "r"), ("m", "objective-c"),
   ("html", "html"), ("htm", "html"), ("css", "css"), ("scss", "scss"),
   ("sass", "scss"), ("less", "less"), ("xml", "xml"), ("yaml", "yaml"),
   ("yml", "yaml"), ("toml", "ini"), ("ini", "ini"), ("conf", "ini"),
   ("cfg", "ini"), ("md", "markdown"), ("markdown", "markdown"),
   ("lua", "lua"), ("dart", "dart"), ("pl", "perl"), ("ex", "elixir"),
   ("exs", "elixir"), ("erl", "erlang"), ("hrl", "erlang"),
   ("clj", "clojure"), ("cljs", "clojure"), ("hs", "haskell"),
   ("ml", "fsharp"), ("fs", "fsharp"), ("vb", "vb")]

/-- First-match lookup in an association table (JavaScript object indexing;
keys are unique in `extensionMap`). -/
def lookupExt : List (String × String) → String → Option String
  | [], _ => none
  | (k, v) :: rest, e => if e = k then some v else lookupExt rest e

/-- JavaScript `toLowerCase` (exact on ASCII, which covers every table key). -/
def jsToLowerCase (s : String) : String :=
  ⟨s.data.map Char.toLower⟩

/-- `LanguageDetector.getLanguageFromExtension`.  The inner conditional
reproduces the JavaScript truthiness test `if (content)` (the empty string
is falsy). -/
def getLanguageFromExtension (test : String → Nat → Bool) (extension : String)
    (content : Option String) : String :=
  match lookupExt extensionMap (jsToLowerCase extension) with
  | some language => language
  | none =>
    match content with
    | some c => if c = "" then "plaintext" else detectLanguage test c
    | none => "plaintext"

/-! ## Specification-side definitions (transcribed from the spec's words,
for comparison with the embedded source) -/

/-- Number of the signature's patterns that match the text. -/
def sigMatchCount (test : String → Nat → Bool) (lang : LanguagePattern) : Nat :=
  (lang.patterns.filter (test lang.name)).length

/-- Spec: "for every LanguageSignature, sum the weights of every content
pattern that matches anywhere in the text (each pattern contributes its
configured weight at most once); accumulate per-canonical-id totals across
signatures that share an id". -/
def specTotal (test : String → Nat → Bool) (id : String) : Nat :=
  ((langPatterns.filter (fun lang => lang.monacoLanguage == id)).map
    (fun lang => lang.weight * sigMatchCount test lang)).sum

/-- The maximum per-canonical-id total (over the ids that have signatures). -/
def maxTotal (test : String → Nat → Bool) : Nat :=
  (langPatterns.map (fun lang => specTotal test lang.monacoLanguage)).foldl max 0

/-- The classifier contract transcribed from the spec: empty/whitespace-only
text gives the unknown sentinel; otherwise pick the id with the strict
maximum accumulated total, resolving ties in favour of the id whose
contributing signature (positive score) is declared first — i.e. return the
id of the first-declared contributing signature whose id attains the
maximum — and apply the minimum-confidence floor of 2. -/
def specDetect (test : String → Nat → Bool) (code : String) : String :=
  if (trimL code.data).isEmpty then "plaintext"
  else
    let M := maxTotal test
    if M < 2 then "plaintext"
    else
      match langPatterns.find?
          (fun lang => decide (0 < sigScore test lang) &&
            (specTotal test lang.monacoLanguage == M)) with
      | some lang => lang.monacoLanguage
      | none => "plaintext"

/-- Recursive per-id total over a signature list (proof-side bridge between
`buildScoresFrom` and `specTotal`). -/
def totalOver (test : String → Nat → Bool) :
    List LanguagePattern → String → Nat
  | [], _ => 0
  | lang :: rest, id =>
    (if lang.monacoLanguage = id then sigScore test lang else 0) +
      totalOver test rest id

/-- The canonical ids receiving a positive signature score, in order of
their first contributing signature, skipping ids already `seen`. -/
def newIds (test : String → Nat → Bool) :
    List LanguagePattern → List String → List String
  | [], _ => []
  | lang :: rest, seen =>
    if 0 < sigScore test lang then
      if lang.monacoLanguage ∈ seen then newIds test rest seen
      else lang.monacoLanguage :: newIds test rest (lang.monacoLanguage :: seen)
    else newIds test rest seen

/-- Spec-side normalisation for the extension-table claim: lower-case and
remove a leading dot. -/
def stripLeadingDot (s : String) : String :=
  match s.data with
  | '.' :: rest => ⟨rest⟩
  | _ => s

/-- The `n`-th (1-based) line of the text, as split by the validators. -/
def lineAt (code : String) (n : Nat) : List Char :=
  (splitOnNl code.data).getD (n - 1) []

/-- Is this finding one of the three unclosed-string findings? -/
def isUnclosedStr (e : ValidationError) : Bool :=
  e.message == "Unclosed triple-quoted string" ||
  e.message == "Unclosed string (single quote)" ||
  e.message == "Unclosed string (double quote)"

/-- The amended position of the unclosed-triple-quote finding: the first
triple-quote occurrence, an occurrence of `"""` taking precedence over one
of `'''`. -/
def tripleFstIdx (l : List Char) : Option Nat :=
  match firstSubstrIdx ['"', '"', '"'] l with
  | some k => some k
  | none => firstSubstrIdx ['\'', '\'', '\''] l

/-- The error findings of the brace-block validator as the claim describes
them: a line whose closing braces drive the cumulative depth below zero
yields one "Unmatched closing brace" error there and the depth restarts at
zero; a positive residual depth `N` at end of input yields one
"N unclosed brace(s)" error anchored at the last line. -/
def cssSpecErrGo (i : Nat) (depth : Int) :
    List (List Char) → List ValidationError × Int
  | [] => ([], depth)
  | l :: rest =>
    let d := depth + netDepth '{' '}' l
    if d < 0 then
      let r := cssSpecErrGo (i + 1) 0 rest
      (⟨i + 1, lastIdxPlus1 '}' l, "Unmatched closing brace", .error⟩ :: r.1, r.2)
    else
      let r := cssSpecErrGo (i + 1) d rest
      (r.1, r.2)

/-- All error-severity findings the claim predicts for the brace-block
validator. -/
def cssSpecErrors (code : String) : List ValidationError :=
  let lines := splitOnNl code.data
  let r := cssSpecErrGo 0 0 lines
  r.1 ++
    (if 0 < r.2 then
       [⟨lines.length, 1, toString r.2 ++ " unclosed brace(s)", .error⟩]
     else [])

/-! ## Basic facts about the line splitter -/

theorem splitOnNl_ne_nil (l : List Char) : splitOnNl l ≠ [] := by
  cases l with
  | nil => simp [splitOnNl]
  | cons c rest =>
    simp only [splitOnNl]
    split <;> simp

theorem splitOnNl_length (l : List Char) :
    (splitOnNl l).length = l.count '\n' + 1 := by
  induction l with
  | nil => simp [splitOnNl]
  | cons c rest ih =>
    by_cases hc : c = '\n'
    · subst hc
      simp [splitOnNl, List.count_cons, ih]
    · have hne := splitOnNl_ne_nil rest
      have hlen : 1 ≤ (splitOnNl rest).length := by
        cases h : splitOnNl rest with
        | nil => exact absurd h hne
        | cons a t => simp
      have hcc : (c == '\n') = false := beq_eq_false_iff_ne.mpr hc
      simp only [splitOnNl]
      rw [if_neg hc]
      simp only [List.length_cons, List.length_tail, List.count_cons, hcc,
        Bool.false_eq_true, if_false]
      omega

/-! ## C4 — the structured-data (JSON) validator -/

/-- **C4.** `validateJSON` returns the empty list iff the text parses as
valid strict JSON (i.e. `JSON.parse` raised no error); on a parse failure
whose message yields a character offset, it returns exactly one finding at
error severity whose line is the number of newlines in the prefix of the
text up to that offset plus one (= the number of prefix lines) and whose
column is the length of the last prefix line plus one; when no offset can be
recovered, the single error finding is anchored at line 1, column 1. -/
theorem validateJSON_spec (pe : Option JsonParseError) (code : String) :
    (validateJSON pe code = [] ↔ pe = none) ∧
    (∀ err pos, pe = some err → err.position = some pos →
      validateJSON pe code =
        [⟨(code.data.take pos).count '\n' + 1,
          ((splitOnNl (code.data.take pos)).getLastD []).length + 1,
          jsMsgBefore err.message, .error⟩]) ∧
    (∀ err, pe = some err → err.position = none →
      validateJSON pe code = [⟨1, 1, err.message, .error⟩]) := by
  refine ⟨?_, ?_, ?_⟩
  · cases pe with
    | none => simp [validateJSON]
    | some err =>
      cases h : err.position <;> simp [validateJSON, h]
  · rintro err pos rfl hpos
    simp [validateJSON, hpos, splitOnNl_length]
  · rintro err rfl hpos
    simp [validateJSON, hpos]

/-- Witness for C4 at a concrete failed parse: the message
`"Unexpected token x in JSON at position 4"` with recovered offset 4 on the
text `"ab\nc\nd"` produces exactly one error finding at line 2, column 2. -/
theorem validateJSON_spec_witness :
    validateJSON (some ⟨"Unexpected token x in JSON at position 4", some 4⟩)
        "ab\nc\nd" =
      [⟨2, 2, "Unexpected token x in JSON", Severity.error⟩] := by
  have h :=
    (validateJSON_spec
        (some ⟨"Unexpected token x in JSON at position 4", some 4⟩)
        "ab\nc\nd").2.1
      ⟨"Unexpected token x in JSON at position 4", some 4⟩ 4 rfl rfl
  exact h.trans (by decide)

/-! ## C8 — the YAML validator -/

/-- **C8.** On a YAML parse failure `validateYAML` returns exactly one
finding at error severity whose line and column are the dependency's
0-based `mark.line`/`mark.column` each incremented by one, defaulting to
line 1, column 1 when the dependency supplies no mark; on a successful
parse it returns the empty list.  (The JavaScript truthiness conditional
`error.mark?.line ? error.mark.line + 1 : 1` agrees with `line + 1` also at
line 0, since `0 + 1 = 1`.) -/
theorem validateYAML_spec (pe : Option YamlParseError) (code : String) :
    (pe = none → validateYAML pe code = []) ∧
    (∀ err, pe = some err →
      validateYAML pe code =
        [⟨(match err.mark with
           | some m => m.line + 1
           | none => 1),
          (match err.mark with
           | some m => m.column + 1
           | none => 1),
          yamlMsgOf err, .error⟩]) := by
  refine ⟨?_, ?_⟩
  · rintro rfl; rfl
  · rintro err rfl
    cases hm : err.mark with
    | none => simp [validateYAML, hm]
    | some m =>
      have h1 : (if m.line ≠ 0 then m.line + 1 else 1) = m.line + 1 := by
        rcases Nat.eq_zero_or_pos m.line with h | h
        · simp [h]
        · simp [Nat.pos_iff_ne_zero.mp h]
      have h2 : (if m.column ≠ 0 then m.column + 1 else 1) = m.column + 1 := by
        rcases Nat.eq_zero_or_pos m.column with h | h
        · simp [h]
        · simp [Nat.pos_iff_ne_zero.mp h]
      simp only [validateYAML, hm, h1, h2]

/-- Witness for C8 at a concrete failed parse with a mark at 0-based line 0,
column 5: the single error finding lands at line 1, column 6 (the zero line
exercises the truthiness conditional). -/
theorem validateYAML_spec_witness :
    validateYAML (some ⟨some ⟨0, 5⟩, some "bad mapping", "full msg"⟩) "k: v" =
      [⟨1, 6, "bad mapping", Severity.error⟩] := by
  have h :=
    (validateYAML_spec (some ⟨some ⟨0, 5⟩, some "bad mapping", "full msg"⟩)
        "k: v").2
      ⟨some ⟨0, 5⟩, some "bad mapping", "full msg"⟩ rfl
  exact h.trans (by decide)

/-! ## C2 — extension-table resolution -/

/-- **C2 counterexample.** The extension string `".py"`, lower-cased and
with its leading dot removed, is a key of the `ExtensionTable` mapped to
`"python"`; yet `getLanguageFromExtension ".py"` (no content) returns
`"plaintext"`, not the table's mapped id — the function lower-cases its
argument but never strips a leading dot, so the claimed normalisation does
not hold. -/
theorem extension_dot_not_stripped_cex :
    lookupExt extensionMap (stripLeadingDot (jsToLowerCase ".py")) =
        some "python" ∧
    getLanguageFromExtension (fun _ _ => false) ".py" none = "plaintext" ∧
    "plaintext" ≠ "python" :=
  ⟨by decide, by decide, by decide⟩

/-- **C2 (amended).** For every extension string whose *lower-casing* is a
key of the `ExtensionTable` (the table's keys carry no leading dot, and the
function does not strip one from its argument), `getLanguageFromExtension`
returns the table's mapped canonical id for every content argument and
every matching oracle — content-based detection is never consulted on that
path (the result does not depend on `test` or `content`). -/
theorem extension_lookup_no_content (test : String → Nat → Bool)
    (ext : String) (content : Option String) (lang : String)
    (h : lookupExt extensionMap (jsToLowerCase ext) = some lang) :
    getLanguageFromExtension test ext content = lang := by
  unfold getLanguageFromExtension
  rw [h]

/-- Witness for the amended C2: `"PY"` lower-cases to the key `"py"`, and
the mapped id `"python"` is returned even with content that is not Python
and an oracle that matches every pattern. -/
theorem extension_lookup_no_content_witness :
    lookupExt extensionMap (jsToLowerCase "PY") = some "python" ∧
    getLanguageFromExtension (fun _ _ => true) "PY"
        (some "function f() \x7b\x7d") = "python" :=
  ⟨by decide,
   extension_lookup_no_content (fun _ _ => true) "PY"
     (some "function f() \x7b\x7d") "python" (by decide)⟩

/-! ## C6 — the brace-block (CSS) validator -/

theorem cssSemicolonWarn_filter_error (n : Nat) (d : Int) (l : List Char) :
    (cssSemicolonWarn n d l).filter (fun e => e.severity == Severity.error) =
      [] := by
  simp only [cssSemicolonWarn]
  split <;> rfl

theorem cssGo_spec (lines : List (List Char)) : ∀ (i : Nat) (depth : Int),
    ((cssGo i depth lines).1.filter
        (fun e => e.severity == Severity.error)) =
      (cssSpecErrGo i depth lines).1 ∧
    (cssGo i depth lines).2 = (cssSpecErrGo i depth lines).2 := by
  induction lines with
  | nil => exact fun i depth => ⟨rfl, rfl⟩
  | cons l rest ih =>
    intro i depth
    by_cases hd : depth + netDepth '{' '}' l < 0
    · simp only [cssGo, cssSpecErrGo, if_pos hd, List.filter_append,
        List.filter_cons, cssSemicolonWarn_filter_error]
      refine ⟨?_, (ih (i + 1) 0).2⟩
      rw [(ih (i + 1) 0).1]
      rfl
    · simp only [cssGo, cssSpecErrGo, if_neg hd, List.filter_append,
        cssSemicolonWarn_filter_error]
      refine ⟨?_, (ih (i + 1) (depth + netDepth '{' '}' l)).2⟩
      rw [(ih (i + 1) (depth + netDepth '{' '}' l)).1]
      rfl

/-- **C6.** `validateCSS` tracks cumulative brace depth across the whole
file; its error-severity findings are exactly those of the claim's
description (`cssSpecErrors`): one "Unmatched closing brace" error on every
line after which the cumulative depth is negative — the depth being reset
to zero there — plus, for a positive residual depth `N` at end of input,
exactly one "N unclosed brace(s)" error anchored at the last line.  In
particular `"a { color: red; } }"` yields exactly one unmatched-closing-
brace error on line 1, and `"a {"` yields exactly one unclosed-brace error
anchored at the last line. -/
theorem validateCSS_error_spec (code : String) :
    (validateCSS code).filter (fun e => e.severity == Severity.error) =
      cssSpecErrors code ∧
    validateCSS "a \x7b color: red; \x7d \x7d" =
      [⟨1, 19, "Unmatched closing brace", Severity.error⟩] ∧
    validateCSS "a \x7b" =
      [⟨1, 1, "1 unclosed brace(s)", Severity.error⟩] := by
  refine ⟨?_, by decide, by decide⟩
  have h1 := (cssGo_spec (splitOnNl code.data) 0 0).1
  have h2 := (cssGo_spec (splitOnNl code.data) 0 0).2
  simp only [validateCSS, cssSpecErrors, List.filter_append, h1, h2]
  congr 1
  split <;> rfl

/-! ## Base facts for the Python validator -/

theorem startsWithL_length {pat l : List Char} (h : startsWithL pat l = true) :
    pat.length ≤ l.length := by
  induction pat generalizing l with
  | nil => simp
  | cons p ps ih =>
    cases l with
    | nil => simp [startsWithL] at h
    | cons c cs =>
      simp only [startsWithL, Bool.and_eq_true] at h
      have := ih h.2
      simp only [List.length_cons]
      omega

theorem firstSubstrIdx_bound {pat l : List Char} {k : Nat}
    (h : firstSubstrIdx pat l = some k) : k + pat.length ≤ l.length := by
  induction l generalizing k with
  | nil =>
    simp only [firstSubstrIdx] at h
    split at h
    · cases h
      cases pat with
      | nil => simp
      | cons p ps => simp_all [startsWithL]
    · cases h
  | cons c rest ih =>
    simp only [firstSubstrIdx] at h
    split at h
    · cases h
      rename_i hs
      simpa using startsWithL_length hs
    · rw [Option.map_eq_some'] at h
      obtain ⟨k', hk', rfl⟩ := h
      have := ih hk'
      simp only [List.length_cons]
      omega

theorem countTriples_first {l : List Char} (h : 0 < countTriples l) :
    (firstSubstrIdx ['"', '"', '"'] l).isSome = true ∨
    (firstSubstrIdx ['\'', '\'', '\''] l).isSome = true := by
  induction l using countTriples.induct with
  | case1 rest ih =>
    left
    simp [firstSubstrIdx, startsWithL]
  | case2 rest ih =>
    right
    simp [firstSubstrIdx, startsWithL]
  | case3 c rest h1 h2 ih =>
    have hr : 0 < countTriples rest := by
      rw [countTriples.eq_def] at h
      split at h
      · rename_i r1 heq
        injection heq with hc htl
        exact absurd htl (fun htl => h1 r1 hc htl)
      · rename_i r1 heq
        injection heq with hc htl
        exact absurd htl (fun htl => h2 r1 hc htl)
      · rename_i head tail hx1 hx2 heq
        injection heq with hc htl
        rw [htl]
        exact h
      · rename_i heq
        exact absurd heq (by simp)
    rcases ih hr with hh | hh
    · left
      simp only [firstSubstrIdx]
      split
      · simp
      · simpa using hh
    · right
      simp only [firstSubstrIdx]
      split
      · simp
      · simpa using hh
  | case4 => simp [countTriples] at h

theorem countUnescapedFrom_pos {q : Char} {prev : Option Char}
    {l : List Char} (h : 0 < countUnescapedFrom q prev l) : q ∈ l := by
  induction l generalizing prev with
  | nil => simp [countUnescapedFrom] at h
  | cons c rest ih =>
    simp only [countUnescapedFrom] at h
    by_cases hc : c = q ∧ prev ≠ some '\\'
    · exact hc.1 ▸ List.mem_cons_self c rest
    · rw [if_neg hc, Nat.zero_add] at h
      exact List.mem_cons_of_mem c (ih h)

theorem lastIdxOf_lt {q : Char} {l : List Char} {k : Nat}
    (h : lastIdxOf q l = some k) : k < l.length := by
  induction l generalizing k with
  | nil => simp [lastIdxOf] at h
  | cons c rest ih =>
    simp only [lastIdxOf] at h
    cases hr : lastIdxOf q rest with
    | some j =>
      rw [hr] at h
      simp only [Option.some.injEq] at h
      subst h
      have := ih hr
      simp only [List.length_cons]
      omega
    | none =>
      rw [hr] at h
      by_cases hcq : c = q
      · rw [if_pos hcq] at h
        simp only [Option.some.injEq] at h
        subst h
        simp
      · rw [if_neg hcq] at h
        cases h

theorem lastIdxOf_isSome {q : Char} {l : List Char} (h : q ∈ l) :
    (lastIdxOf q l).isSome = true := by
  induction l with
  | nil => simp at h
  | cons c rest ih =>
    simp only [lastIdxOf]
    cases hr : lastIdxOf q rest with
    | some j => simp
    | none =>
      rcases List.mem_cons.mp h with rfl | hm
      · simp
      · have := ih hm
        rw [hr] at this
        simp at this

theorem foldl_depth_le {openC closeC : Char} {l : List Char}
    (hno : openC ∉ l) : ∀ d0 : Int,
    l.foldl
        (fun d c => if c = openC then d + 1 else if c = closeC then d - 1 else d)
        d0 ≤ d0 := by
  induction l with
  | nil => intro d0; simp
  | cons c rest ih =>
    intro d0
    have hc : c ≠ openC := fun hcc => hno (hcc ▸ List.mem_cons_self c rest)
    have hrest : openC ∉ rest := fun hm => hno (List.mem_cons_of_mem c hm)
    simp only [List.foldl_cons, if_neg hc]
    split
    · have := ih hrest (d0 - 1)
      omega
    · exact ih hrest d0

theorem foldl_depth_ge {openC closeC : Char} {l : List Char}
    (hno : closeC ∉ l) : ∀ d0 : Int,
    d0 ≤ l.foldl
        (fun d c => if c = openC then d + 1 else if c = closeC then d - 1 else d)
        d0 := by
  induction l with
  | nil => intro d0; simp
  | cons c rest ih =>
    intro d0
    have hc : c ≠ closeC := fun hcc => hno (hcc ▸ List.mem_cons_self c rest)
    have hrest : closeC ∉ rest := fun hm => hno (List.mem_cons_of_mem c hm)
    simp only [List.foldl_cons]
    by_cases ho : c = openC
    · rw [if_pos ho]
      have := ih hrest (d0 + 1)
      omega
    · rw [if_neg ho, if_neg hc]
      exact ih hrest d0

theorem netDepth_pos_mem {o c : Char} {l : List Char}
    (h : 0 < netDepth o c l) : o ∈ l := by
  by_contra hno
  have := @foldl_depth_le o c _ hno 0
  unfold netDepth at h
  omega

theorem netDepth_neg_mem {o c : Char} {l : List Char}
    (h : netDepth o c l < 0) : c ∈ l := by
  by_contra hno
  have := @foldl_depth_ge o c _ hno 0
  unfold netDepth at h
  omega

theorem hasDefPat_first {prev : Option Char} {l : List Char}
    (h : hasDefPat prev l = true) :
    (firstSubstrIdx ['d', 'e', 'f'] l).isSome = true := by
  induction l generalizing prev with
  | nil => simp [hasDefPat] at h
  | cons c rest ih =>
    simp only [hasDefPat, Bool.or_eq_true] at h
    rcases h with h | h
    · simp only [Bool.and_eq_true, beq_iff_eq] at h
      obtain ⟨⟨rfl, _⟩, hm⟩ := h
      split at hm
      · simp [firstSubstrIdx, startsWithL]
      · cases hm
    · have := ih h
      simp only [firstSubstrIdx]
      split
      · simp
      · simpa using this

theorem dropWhile_head_not {p : Char → Bool} {l : List Char} {c : Char}
    {cs : List Char} (h : l.dropWhile p = c :: cs) : p c = false := by
  induction l with
  | nil => simp [List.dropWhile] at h
  | cons a rest ih =>
    rw [List.dropWhile_cons] at h
    split at h
    · exact ih h
    · rename_i ha
      injection h with h1 h2
      subst h1
      exact Bool.not_eq_true _ ▸ (by simpa using ha)

theorem dropWhile_append_singleton {p : Char → Bool} {c : Char}
    (hc : p c = false) (xs : List Char) :
    (xs ++ [c]).dropWhile p = xs.dropWhile p ++ [c] := by
  induction xs with
  | nil => simp [List.dropWhile_cons, hc]
  | cons a rest ih =>
    by_cases ha : p a = true
    · simp [List.dropWhile_cons, ha, ih]
    · simp [List.dropWhile_cons, ha]

theorem trimL_cons_of_head {l : List Char} {c : Char} {cs : List Char}
    (h : l.dropWhile Char.isWhitespace = c :: cs) :
    ∃ ds, trimL l = c :: ds := by
  have hc : Char.isWhitespace c = false := dropWhile_head_not h
  unfold trimL dropTrailingWs
  rw [h, List.reverse_cons, dropWhile_append_singleton hc,
    List.reverse_append]
  exact ⟨_, rfl⟩

theorem matchesKeyword_cons {k : Char} {ks m : List Char}
    (h : matchesKeyword (k :: ks) m = true) : ∃ m', m = k :: m' := by
  cases m with
  | nil => simp [matchesKeyword] at h
  | cons c cs =>
    simp only [matchesKeyword, Bool.and_eq_true, beq_iff_eq] at h
    exact ⟨cs, by rw [h.1]⟩

theorem startsControlKw_shape {l : List Char} (h : startsControlKw l = true) :
    ∃ c cs, l.dropWhile Char.isWhitespace = c :: cs ∧
      Char.isWhitespace c = false ∧ c ≠ '#' := by
  simp only [startsControlKw, pyKeywords, List.any_cons, List.any_nil,
    Bool.or_eq_true] at h
  rcases h with h | h | h | h | h | h | h | h | h | h | h | h
  · obtain ⟨m', hm⟩ := matchesKeyword_cons h
    exact ⟨'i', m', hm, by decide, by decide⟩
  · obtain ⟨m', hm⟩ := matchesKeyword_cons h
    exact ⟨'e', m', hm, by decide, by decide⟩
  · obtain ⟨m', hm⟩ := matchesKeyword_cons h
    exact ⟨'e', m', hm, by decide, by decide⟩
  · obtain ⟨m', hm⟩ := matchesKeyword_cons h
    exact ⟨'f', m', hm, by decide, by decide⟩
  · obtain ⟨m', hm⟩ := matchesKeyword_cons h
    exact ⟨'w', m', hm, by decide, by decide⟩
  · obtain ⟨m', hm⟩ := matchesKeyword_cons h
    exact ⟨'d', m', hm, by decide, by decide⟩
  · obtain ⟨m', hm⟩ := matchesKeyword_cons h
    exact ⟨'c', m', hm, by decide, by decide⟩
  · obtain ⟨m', hm⟩ := matchesKeyword_cons h
    exact ⟨'w', m', hm, by decide, by decide⟩
  · obtain ⟨m', hm⟩ := matchesKeyword_cons h
    exact ⟨'t', m', hm, by decide, by decide⟩
  · obtain ⟨m', hm⟩ := matchesKeyword_cons h
    exact ⟨'e', m', hm, by decide, by decide⟩
  · obtain ⟨m', hm⟩ := matchesKeyword_cons h
    exact ⟨'f', m', hm, by decide, by decide⟩
  · exact absurd h (by simp)

theorem startsControlKw_not_skipped {l : List Char}
    (h : startsControlKw l = true) : pySkipped l = false := by
  obtain ⟨c, cs, hd, hws, hhash⟩ := startsControlKw_shape h
  obtain ⟨ds, ht⟩ := trimL_cons_of_head hd
  unfold pySkipped
  rw [ht]
  have hcc : ('#' == c) = false := beq_eq_false_iff_ne.mpr (Ne.symm hhash)
  simp [startsWithL, hcc]

theorem startsControlKw_ne_nil {l : List Char}
    (h : startsControlKw l = true) : l ≠ [] := by
  obtain ⟨c, cs, hd, _, _⟩ := startsControlKw_shape h
  intro hl
  rw [hl] at hd
  simp at hd

/-! ## Per-check facts for `validatePython` -/

theorem lastIdxPlus1_bounds {q : Char} {l : List Char} (h : q ∈ l) :
    1 ≤ lastIdxPlus1 q l ∧ lastIdxPlus1 q l ≤ l.length := by
  obtain ⟨k, hk⟩ := Option.isSome_iff_exists.mp (lastIdxOf_isSome h)
  have hlt := lastIdxOf_lt hk
  have h2 : lastIdxPlus1 q l = k + 1 := by
    unfold lastIdxPlus1
    rw [hk]
  rw [h2]
  omega

theorem unclosedTripleCol_bounds {l : List Char} (h : 0 < countTriples l) :
    1 ≤ unclosedTripleCol l ∧ unclosedTripleCol l ≤ l.length + 1 := by
  cases hdq : firstSubstrIdx ['"', '"', '"'] l with
  | some k =>
    have hb := firstSubstrIdx_bound hdq
    have h2 : unclosedTripleCol l = k + 1 := by
      unfold unclosedTripleCol
      rw [hdq]
    rw [h2]
    simp only [List.length_cons, List.length_nil] at hb
    omega
  | none =>
    have hsq : (firstSubstrIdx ['\'', '\'', '\''] l).isSome = true := by
      rcases countTriples_first h with hh | hh
      · rw [hdq] at hh
        simp at hh
      · exact hh
    obtain ⟨k, hk⟩ := Option.isSome_iff_exists.mp hsq
    have hb := firstSubstrIdx_bound hk
    have h2 : unclosedTripleCol l = k + 1 := by
      unfold unclosedTripleCol
      rw [hdq, hk]
    rw [h2]
    simp only [List.length_cons, List.length_nil] at hb
    omega

theorem pyQuoteErrors_mem {n : Nat} {l : List Char} {e : ValidationError}
    (he : e ∈ pyQuoteErrors n l) :
    e.line = n ∧ 1 ≤ e.column ∧ e.column ≤ l.length + 1 ∧
      e.severity = Severity.error ∧ isUnclosedStr e = true := by
  unfold pyQuoteErrors at he
  split_ifs at he with h1 h2 h3
  · simp only [List.mem_singleton] at he
    subst he
    have hpos : 0 < countTriples l := by omega
    have hb := unclosedTripleCol_bounds hpos
    exact ⟨rfl, hb.1, hb.2, rfl, by rfl⟩
  · simp only [List.mem_singleton] at he
    subst he
    have hpos : 0 < countUnescaped '\'' l := by omega
    have hb := lastIdxPlus1_bounds (countUnescapedFrom_pos hpos)
    exact ⟨rfl, hb.1, Nat.le_succ_of_le hb.2, rfl, by rfl⟩
  · simp only [List.mem_singleton] at he
    subst he
    have hpos : 0 < countUnescaped '"' l := by omega
    have hb := lastIdxPlus1_bounds (countUnescapedFrom_pos hpos)
    exact ⟨rfl, hb.1, Nat.le_succ_of_le hb.2, rfl, by rfl⟩
  · simp at he

theorem pyDepthErrors_mem {n : Nat} {l : List Char} {openC closeC : Char}
    {msgOpen msgClose : String} {e : ValidationError}
    (he : e ∈ pyDepthErrors n l openC closeC msgOpen msgClose) :
    e.line = n ∧ 1 ≤ e.column ∧ e.column ≤ l.length + 1 ∧
      e.severity = Severity.error ∧
      (e.message = msgOpen ∨ e.message = msgClose) := by
  simp only [pyDepthErrors] at he
  split_ifs at he with hd h0
  · simp only [List.mem_singleton] at he
    subst he
    have hb := lastIdxPlus1_bounds (netDepth_pos_mem h0)
    exact ⟨rfl, hb.1, Nat.le_succ_of_le hb.2, rfl, Or.inl rfl⟩
  · have hneg : netDepth openC closeC l < 0 := by omega
    simp only [List.mem_singleton] at he
    subst he
    have hb := lastIdxPlus1_bounds (netDepth_neg_mem hneg)
    exact ⟨rfl, hb.1, Nat.le_succ_of_le hb.2, rfl, Or.inr rfl⟩
  · simp at he

theorem pyIndentWarn_mem {n : Nat} {l : List Char} {e : ValidationError}
    (he : e ∈ pyIndentWarn n l) :
    e.line = n ∧ 1 ≤ e.column ∧ e.column ≤ l.length + 1 ∧
      e.severity = Severity.warning := by
  unfold pyIndentWarn at he
  split at he
  · split_ifs at he with hk
    · simp only [List.mem_singleton] at he
      subst he
      exact ⟨rfl, le_refl 1, Nat.succ_le_succ (Nat.zero_le _), rfl⟩
    · simp at he
  · simp at he

theorem pyColonError_mem {n : Nat} {l : List Char} {e : ValidationError}
    (he : e ∈ pyColonError n l) :
    e.line = n ∧ 1 ≤ e.column ∧ e.column ≤ l.length + 1 ∧
      e.severity = Severity.error ∧
      e.message = "Missing colon at end of statement" := by
  unfold pyColonError at he
  split_ifs at he with hc
  · simp only [List.mem_singleton] at he
    subst he
    simp only [Bool.and_eq_true] at hc
    have hne := startsControlKw_ne_nil hc.1
    have hlen : 0 < l.length := List.length_pos.mpr hne
    exact ⟨rfl, hlen, Nat.le_succ _, rfl, rfl⟩
  · simp at he

theorem pyDefError_mem {n : Nat} {l : List Char} {e : ValidationError}
    (he : e ∈ pyDefError n l) :
    e.line = n ∧ 1 ≤ e.column ∧ e.column ≤ l.length + 1 ∧
      e.severity = Severity.error ∧
      e.message = "Function definition missing colon" := by
  unfold pyDefError at he
  split_ifs at he with hc
  · simp only [List.mem_singleton] at he
    subst he
    simp only [Bool.and_eq_true] at hc
    obtain ⟨k, hk⟩ :=
      Option.isSome_iff_exists.mp (hasDefPat_first hc.1)
    have hb := firstSubstrIdx_bound hk
    simp only [List.length_cons, List.length_nil] at hb
    rw [hk]
    exact ⟨rfl, Nat.succ_le_succ (Nat.zero_le k),
      Nat.succ_le_succ (by omega), rfl, rfl⟩
  · simp at he

theorem pyLineErrors_mem {n : Nat} {l : List Char} {e : ValidationError}
    (he : e ∈ pyLineErrors n l) :
    e.line = n ∧ 1 ≤ e.column ∧ e.column ≤ l.length + 1 := by
  unfold pyLineErrors at he
  split at he
  · simp at he
  · simp only [List.mem_append] at he
    rcases he with ((((((h | h) | h) | h) | h) | h) | h)
    · exact ⟨(pyQuoteErrors_mem h).1, (pyQuoteErrors_mem h).2.1,
        (pyQuoteErrors_mem h).2.2.1⟩
    · exact ⟨(pyDepthErrors_mem h).1, (pyDepthErrors_mem h).2.1,
        (pyDepthErrors_mem h).2.2.1⟩
    · exact ⟨(pyDepthErrors_mem h).1, (pyDepthErrors_mem h).2.1,
        (pyDepthErrors_mem h).2.2.1⟩
    · exact ⟨(pyDepthErrors_mem h).1, (pyDepthErrors_mem h).2.1,
        (pyDepthErrors_mem h).2.2.1⟩
    · exact ⟨(pyIndentWarn_mem h).1, (pyIndentWarn_mem h).2.1,
        (pyIndentWarn_mem h).2.2.1⟩
    · exact ⟨(pyColonError_mem h).1, (pyColonError_mem h).2.1,
        (pyColonError_mem h).2.2.1⟩
    · exact ⟨(pyDefError_mem h).1, (pyDefError_mem h).2.1,
        (pyDefError_mem h).2.2.1⟩

/-! ## Line bookkeeping for `validatePython` -/

theorem pyGo_mem {lines : List (List Char)} : ∀ {i : Nat}
    {e : ValidationError}, e ∈ pyGo i lines →
    ∃ j, j < lines.length ∧ e.line = i + j + 1 ∧
      e ∈ pyLineErrors (i + j + 1) (lines.getD j []) := by
  induction lines with
  | nil => intro i e he; simp [pyGo] at he
  | cons l rest ih =>
    intro i e he
    rw [pyGo, List.mem_append] at he
    rcases he with h | h
    · exact ⟨0, by simp, (pyLineErrors_mem h).1, by simpa using h⟩
    · obtain ⟨j, hj, hl, hm⟩ := ih h
      refine ⟨j + 1, by simpa using hj, by omega, ?_⟩
      have : i + 1 + j + 1 = i + (j + 1) + 1 := by omega
      rw [this] at hm
      simpa using hm

theorem pyLineErrors_filter_other {n m : Nat} {l : List Char} (hne : n ≠ m) :
    (pyLineErrors n l).filter (fun e => e.line == m) = [] := by
  rw [List.filter_eq_nil_iff]
  intro e he
  have h1 := (pyLineErrors_mem he).1
  simp [h1, hne]

theorem pyLineErrors_filter_self (n : Nat) (l : List Char) :
    (pyLineErrors n l).filter (fun e => e.line == n) = pyLineErrors n l := by
  rw [List.filter_eq_self]
  intro e he
  simp [(pyLineErrors_mem he).1]

theorem pyGo_filter_out {lines : List (List Char)} : ∀ {i n : Nat},
    n ≤ i ∨ i + lines.length < n →
    (pyGo i lines).filter (fun e => e.line == n) = [] := by
  induction lines with
  | nil => intro i n _; simp [pyGo]
  | cons l rest ih =>
    intro i n h
    rw [pyGo, List.filter_append]
    rw [pyLineErrors_filter_other (by simp at h; omega)]
    rw [ih (by simp at h; omega)]
    rfl

theorem pyGo_filter_line {lines : List (List Char)} : ∀ {i n : Nat},
    i < n → n ≤ i + lines.length →
    (pyGo i lines).filter (fun e => e.line == n) =
      pyLineErrors n (lines.getD (n - i - 1) []) := by
  induction lines with
  | nil =>
    intro i n h1 h2
    simp only [List.length_nil] at h2
    omega
  | cons l rest ih =>
    intro i n h1 h2
    rw [pyGo, List.filter_append]
    by_cases hn : n = i + 1
    · subst hn
      rw [pyLineErrors_filter_self, pyGo_filter_out (Or.inl (le_refl _))]
      have h0 : i + 1 - i - 1 = 0 := by omega
      rw [h0]
      simp
    · rw [pyLineErrors_filter_other (fun hx => hn hx.symm)]
      rw [ih (by omega) (by simp at h2; omega)]
      have hsucc : n - i - 1 = (n - (i + 1) - 1) + 1 := by omega
      rw [hsucc]
      simp

theorem validatePython_filter_line {code : String} {n : Nat} (h1 : 1 ≤ n)
    (h2 : n ≤ (splitOnNl code.data).length) :
    (validatePython code).filter (fun e => e.line == n) =
      pyLineErrors n (lineAt code n) := by
  unfold validatePython lineAt
  rw [pyGo_filter_line (by omega) (by omega)]
  have h0 : n - 0 - 1 = n - 1 := by omega
  rw [h0]

theorem validatePython_filter_out {code : String} {n : Nat}
    (h : n = 0 ∨ (splitOnNl code.data).length < n) :
    (validatePython code).filter (fun e => e.line == n) = [] := by
  unfold validatePython
  apply pyGo_filter_out
  omega

/-! ## Isolating the unclosed-string findings of a line -/

theorem pyQuoteErrors_filter_self (n : Nat) (l : List Char) :
    (pyQuoteErrors n l).filter (fun e => isUnclosedStr e) =
      pyQuoteErrors n l := by
  rw [List.filter_eq_self]
  intro e he
  exact (pyQuoteErrors_mem he).2.2.2.2

theorem pyDepthErrors_filter_paren (n : Nat) (l : List Char) :
    (pyDepthErrors n l '(' ')' "Unclosed parenthesis"
        "Unmatched closing parenthesis").filter
      (fun e => isUnclosedStr e) = [] := by
  simp only [pyDepthErrors]
  split_ifs <;> rfl

theorem pyDepthErrors_filter_bracket (n : Nat) (l : List Char) :
    (pyDepthErrors n l '[' ']' "Unclosed bracket"
        "Unmatched closing bracket").filter
      (fun e => isUnclosedStr e) = [] := by
  simp only [pyDepthErrors]
  split_ifs <;> rfl

theorem pyDepthErrors_filter_brace (n : Nat) (l : List Char) :
    (pyDepthErrors n l '{' '}' "Unclosed brace"
        "Unmatched closing brace").filter
      (fun e => isUnclosedStr e) = [] := by
  simp only [pyDepthErrors]
  split_ifs <;> rfl

theorem pyIndentWarn_filter_unclosed (n : Nat) (l : List Char) :
    (pyIndentWarn n l).filter (fun e => isUnclosedStr e) = [] := by
  unfold pyIndentWarn
  split
  · split_ifs <;> rfl
  · rfl

theorem pyColonError_filter_unclosed (n : Nat) (l : List Char) :
    (pyColonError n l).filter (fun e => isUnclosedStr e) = [] := by
  unfold pyColonError
  split_ifs <;> rfl

theorem pyDefError_filter_unclosed (n : Nat) (l : List Char) :
    (pyDefError n l).filter (fun e => isUnclosedStr e) = [] := by
  unfold pyDefError
  split_ifs <;> rfl

/-- Within one line, the unclosed-string findings are exactly the quote
check's findings. -/
theorem pyLineErrors_filter_unclosed (n : Nat) (l : List Char) :
    (pyLineErrors n l).filter (fun e => isUnclosedStr e) =
      if pySkipped l then [] else pyQuoteErrors n l := by
  unfold pyLineErrors
  split_ifs with hs
  · rfl
  · simp only [List.filter_append, pyQuoteErrors_filter_self,
      pyDepthErrors_filter_paren, pyDepthErrors_filter_bracket,
      pyDepthErrors_filter_brace, pyIndentWarn_filter_unclosed,
      pyColonError_filter_unclosed, pyDefError_filter_unclosed,
      List.append_nil]

theorem filter_line_unclosed_comm (l : List ValidationError) (n : Nat) :
    l.filter (fun e => e.line == n && isUnclosedStr e) =
      (l.filter (fun e => e.line == n)).filter (fun e => isUnclosedStr e) := by
  rw [List.filter_filter]
  apply List.filter_congr
  intro a _
  exact Bool.and_comm _ _

theorem validatePython_unclosed_in {code : String} {n : Nat} (h1 : 1 ≤ n)
    (h2 : n ≤ (splitOnNl code.data).length) :
    (validatePython code).filter (fun e => e.line == n && isUnclosedStr e) =
      if pySkipped (lineAt code n) then []
      else pyQuoteErrors n (lineAt code n) := by
  rw [filter_line_unclosed_comm, validatePython_filter_line h1 h2,
    pyLineErrors_filter_unclosed]

theorem validatePython_unclosed_out {code : String} {n : Nat}
    (h : n = 0 ∨ (splitOnNl code.data).length < n) :
    (validatePython code).filter (fun e => e.line == n && isUnclosedStr e) =
      [] := by
  rw [filter_line_unclosed_comm, validatePython_filter_out h]
  rfl

theorem pyQuoteErrors_triple_odd {n : Nat} {l : List Char}
    (h : countTriples l % 2 = 1) :
    pyQuoteErrors n l =
      [⟨n, unclosedTripleCol l, "Unclosed triple-quoted string",
        Severity.error⟩] := by
  unfold pyQuoteErrors
  rw [if_pos (by omega)]

theorem pyQuoteErrors_single_odd {n : Nat} {l : List Char}
    (ht : countTriples l % 2 = 0) (hs : countUnescaped '\'' l % 2 = 1) :
    pyQuoteErrors n l =
      [⟨n, lastIdxPlus1 '\'' l, "Unclosed string (single quote)",
        Severity.error⟩] := by
  unfold pyQuoteErrors
  rw [if_neg (by omega), if_pos (by omega)]

theorem pyQuoteErrors_double_odd {n : Nat} {l : List Char}
    (ht : countTriples l % 2 = 0) (hs : countUnescaped '\'' l % 2 = 0)
    (hd : countUnescaped '"' l % 2 = 1) :
    pyQuoteErrors n l =
      [⟨n, lastIdxPlus1 '"' l, "Unclosed string (double quote)",
        Severity.error⟩] := by
  unfold pyQuoteErrors
  rw [if_neg (by omega), if_neg (by omega), if_pos (by omega)]

theorem pyQuoteErrors_length (n : Nat) (l : List Char) :
    (pyQuoteErrors n l).length ≤ 1 := by
  unfold pyQuoteErrors
  split_ifs <;> simp

theorem tripleFstIdx_col {l : List Char} (h : 0 < countTriples l) :
    ∃ k, tripleFstIdx l = some k ∧ unclosedTripleCol l = k + 1 := by
  cases hdq : firstSubstrIdx ['"', '"', '"'] l with
  | some k =>
    refine ⟨k, ?_, ?_⟩
    · unfold tripleFstIdx
      rw [hdq]
    · unfold unclosedTripleCol
      rw [hdq]
  | none =>
    have hsq : (firstSubstrIdx ['\'', '\'', '\''] l).isSome = true := by
      rcases countTriples_first h with hh | hh
      · rw [hdq] at hh
        simp at hh
      · exact hh
    obtain ⟨k, hk⟩ := Option.isSome_iff_exists.mp hsq
    refine ⟨k, ?_, ?_⟩
    · unfold tripleFstIdx
      rw [hdq]
      exact hk
    · unfold unclosedTripleCol
      rw [hdq, hk]

/-! ## C7 — missing colon after a control-flow header -/

/-- **C7.** For every line of the input that begins (after leading
whitespace) with one of the control-flow keywords `if`, `elif`, `else`,
`for`, `while`, `def`, `class`, `with`, `try`, `except`, `finally` (as a
whole word), and whose trimmed text does not end with a colon,
`validatePython` emits an error finding on that line at column equal to the
line's length (its end) with message "Missing colon at end of statement";
in particular `"if True\n    pass"` yields exactly one finding, the
missing-colon error on line 1. -/
theorem missing_colon_spec :
    (∀ (code : String) (n : Nat), 1 ≤ n →
      n ≤ (splitOnNl code.data).length →
      startsControlKw (lineAt code n) = true →
      endsWithChar ':' (trimL (lineAt code n)) = false →
      (⟨n, (lineAt code n).length, "Missing colon at end of statement",
        Severity.error⟩ : ValidationError) ∈ validatePython code) ∧
    validatePython "if True\n    pass" =
      [⟨1, 7, "Missing colon at end of statement", Severity.error⟩] := by
  constructor
  · intro code n h1 h2 hkw hcol
    have hc : pyColonError n (lineAt code n) =
        [⟨n, (lineAt code n).length, "Missing colon at end of statement",
          Severity.error⟩] := by
      unfold pyColonError
      rw [if_pos (by rw [hkw, hcol]; rfl)]
    have hmem : (⟨n, (lineAt code n).length,
        "Missing colon at end of statement", Severity.error⟩ :
          ValidationError) ∈ pyLineErrors n (lineAt code n) := by
      unfold pyLineErrors
      rw [if_neg (by rw [startsControlKw_not_skipped hkw]; simp)]
      simp [hc]
    have hin : (⟨n, (lineAt code n).length,
        "Missing colon at end of statement", Severity.error⟩ :
          ValidationError) ∈
        (validatePython code).filter (fun e => e.line == n) := by
      rw [validatePython_filter_line h1 h2]
      exact hmem
    exact List.mem_of_mem_filter hin
  · decide

/-- Witness for C7 at the spec's own example input. -/
theorem missing_colon_spec_witness :
    (⟨1, 7, "Missing colon at end of statement", Severity.error⟩ :
      ValidationError) ∈ validatePython "if True\n    pass" := by
  have h := missing_colon_spec.1 "if True\n    pass" 1 (by decide) (by decide)
    (by decide) (by decide)
  have hl : (lineAt "if True\n    pass" 1).length = 7 := by decide
  rw [hl] at h
  exact h

/-! ## C10 — at most one unclosed-string finding per line -/

/-- **C10.** For every input and line number, `validatePython` emits at most
one unclosed-string finding for that line across the three quote
categories; when the line's triple-quote count is odd, every unclosed-string
finding on the line is the triple-quote one; when the triple-quote count is
even and the unescaped single-quote count odd (in particular when the
double-quote count is also odd), every unclosed-string finding is the
single-quote one — the double-quote check is skipped. -/
theorem at_most_one_unclosed_string (code : String) (n : Nat) :
    ((validatePython code).filter
        (fun e => e.line == n && isUnclosedStr e)).length ≤ 1 ∧
    (countTriples (lineAt code n) % 2 = 1 →
      ∀ e ∈ (validatePython code).filter
          (fun e => e.line == n && isUnclosedStr e),
        e.message = "Unclosed triple-quoted string") ∧
    (countTriples (lineAt code n) % 2 = 0 ∧
        countUnescaped '\'' (lineAt code n) % 2 = 1 →
      ∀ e ∈ (validatePython code).filter
          (fun e => e.line == n && isUnclosedStr e),
        e.message = "Unclosed string (single quote)") := by
  by_cases hr : 1 ≤ n ∧ n ≤ (splitOnNl code.data).length
  · rw [validatePython_unclosed_in hr.1 hr.2]
    by_cases hs : pySkipped (lineAt code n)
    · rw [if_pos hs]
      exact ⟨by simp, fun _ => by simp, fun _ => by simp⟩
    · rw [if_neg hs]
      refine ⟨pyQuoteErrors_length n _, ?_, ?_⟩
      · intro hodd e he
        rw [pyQuoteErrors_triple_odd hodd] at he
        simp only [List.mem_singleton] at he
        rw [he]
      · rintro ⟨ht, hsg⟩ e he
        rw [pyQuoteErrors_single_odd ht hsg] at he
        simp only [List.mem_singleton] at he
        rw [he]
  · rw [validatePython_unclosed_out (by omega)]
    exact ⟨by simp, fun _ => by simp, fun _ => by simp⟩

/-- Witness for C10 on the line `'"` (both single- and double-quote counts
odd): only the single-quote finding is emitted. -/
theorem at_most_one_unclosed_string_witness :
    ((validatePython ⟨['\'', '"']⟩).filter
        (fun e => e.line == 1 && isUnclosedStr e)).length ≤ 1 ∧
    (⟨1, 1, "Unclosed string (single quote)", Severity.error⟩ :
        ValidationError).message = "Unclosed string (single quote)" := by
  refine ⟨(at_most_one_unclosed_string ⟨['\'', '"']⟩ 1).1, ?_⟩
  exact (at_most_one_unclosed_string ⟨['\'', '"']⟩ 1).2.2
    ⟨by decide, by decide⟩
    ⟨1, 1, "Unclosed string (single quote)", Severity.error⟩ (by decide)

/-! ## C5 — unclosed-string findings and their positions -/

/-- **C5 counterexample.**  On the single line `"""a''' b"""'` the
triple-quote count is 3 (odd) while the unescaped single- and double-quote
counts are even (exactly one odd category), so the claim applies; the unique
unclosed-string finding is produced at column 1 — the FIRST triple-quote
occurrence — although the line's last quote character of the triple kind is
its last `"` at index 11 (column 12; the last triple-quote occurrence starts
at index 9, column 10).  The claim's "positioned at the last quote character
of that kind on the line" therefore fails for the triple-quote category. -/
theorem triple_quote_position_cex :
    (countTriples
          ['"', '"', '"', 'a', '\'', '\'', '\'', ' ', 'b', '"', '"', '"', '\''] %
            2 = 1 ∧
      countUnescaped '\''
          ['"', '"', '"', 'a', '\'', '\'', '\'', ' ', 'b', '"', '"', '"', '\''] %
            2 = 0 ∧
      countUnescaped '"'
          ['"', '"', '"', 'a', '\'', '\'', '\'', ' ', 'b', '"', '"', '"', '\''] %
            2 = 0) ∧
    validatePython
        ⟨['"', '"', '"', 'a', '\'', '\'', '\'', ' ', 'b', '"', '"', '"', '\'']⟩ =
      [⟨1, 1, "Unclosed triple-quoted string", Severity.error⟩] ∧
    lastIdxOf '"'
        ['"', '"', '"', 'a', '\'', '\'', '\'', ' ', 'b', '"', '"', '"', '\''] =
      some 11 ∧
    firstSubstrIdx ['"', '"', '"']
        (['"', '"', '"', 'a', '\'', '\'', '\'', ' ', 'b', '"', '"', '"',
          '\''].drop 9) = some 0 ∧
    (1 : Nat) ≠ 12 ∧ (1 : Nat) ≠ 10 := by
  decide

/-- **C5 (amended).**  For every line of the input that is neither blank nor
a comment, an odd count of unescaped quotes in exactly one category produces
exactly one unclosed-string finding for that line, of the corresponding
kind, at error severity; triple-quote parity is checked before the
single/double checks.  The finding's position is the last quote character of
that kind for the single- and double-quote categories, but for the
triple-quote category it is the FIRST triple-quote occurrence on the line
(an occurrence of `"""` taking precedence over one of `'''`). -/
theorem unclosed_string_findings (code : String) (n : Nat) (h1 : 1 ≤ n)
    (h2 : n ≤ (splitOnNl code.data).length)
    (hs : pySkipped (lineAt code n) = false) :
    (countTriples (lineAt code n) % 2 = 1 ∧
        countUnescaped '\'' (lineAt code n) % 2 = 0 ∧
        countUnescaped '"' (lineAt code n) % 2 = 0 →
      ∃ k, tripleFstIdx (lineAt code n) = some k ∧
        (validatePython code).filter
            (fun e => e.line == n && isUnclosedStr e) =
          [⟨n, k + 1, "Unclosed triple-quoted string", Severity.error⟩]) ∧
    (countTriples (lineAt code n) % 2 = 0 ∧
        countUnescaped '\'' (lineAt code n) % 2 = 1 ∧
        countUnescaped '"' (lineAt code n) % 2 = 0 →
      ∃ k, lastIdxOf '\'' (lineAt code n) = some k ∧
        (validatePython code).filter
            (fun e => e.line == n && isUnclosedStr e) =
          [⟨n, k + 1, "Unclosed string (single quote)", Severity.error⟩]) ∧
    (countTriples (lineAt code n) % 2 = 0 ∧
        countUnescaped '\'' (lineAt code n) % 2 = 0 ∧
        countUnescaped '"' (lineAt code n) % 2 = 1 →
      ∃ k, lastIdxOf '"' (lineAt code n) = some k ∧
        (validatePython code).filter
            (fun e => e.line == n && isUnclosedStr e) =
          [⟨n, k + 1, "Unclosed string (double quote)", Severity.error⟩]) := by
  have hF := validatePython_unclosed_in h1 h2
  rw [hs] at hF
  simp only [Bool.false_eq_true, if_false] at hF
  refine ⟨?_, ?_, ?_⟩
  · rintro ⟨ht, _, _⟩
    obtain ⟨k, hk, hcol⟩ := tripleFstIdx_col (l := lineAt code n) (by omega)
    refine ⟨k, hk, ?_⟩
    rw [hF, pyQuoteErrors_triple_odd ht, hcol]
  · rintro ⟨ht, hsg, _⟩
    have hpos : 0 < countUnescaped '\'' (lineAt code n) := by omega
    obtain ⟨k, hk⟩ := Option.isSome_iff_exists.mp
      (lastIdxOf_isSome (countUnescapedFrom_pos hpos))
    have hcol : lastIdxPlus1 '\'' (lineAt code n) = k + 1 := by
      unfold lastIdxPlus1
      rw [hk]
    refine ⟨k, hk, ?_⟩
    rw [hF, pyQuoteErrors_single_odd ht hsg, hcol]
  · rintro ⟨ht, hsg, hd⟩
    have hpos : 0 < countUnescaped '"' (lineAt code n) := by omega
    obtain ⟨k, hk⟩ := Option.isSome_iff_exists.mp
      (lastIdxOf_isSome (countUnescapedFrom_pos hpos))
    have hcol : lastIdxPlus1 '"' (lineAt code n) = k + 1 := by
      unfold lastIdxPlus1
      rw [hk]
    refine ⟨k, hk, ?_⟩
    rw [hF, pyQuoteErrors_double_odd ht hsg hd, hcol]

/-- Witness for the amended C5 at the spec's own example line `x = 'abc`
(odd single-quote count only): one single-quote finding at the last quote
character (index 4, column 5). -/
theorem unclosed_string_findings_witness :
    lastIdxOf '\''
        (lineAt ⟨['x', ' ', '=', ' ', '\'', 'a', 'b', 'c']⟩ 1) = some 4 ∧
    (validatePython ⟨['x', ' ', '=', ' ', '\'', 'a', 'b', 'c']⟩).filter
        (fun e => e.line == 1 && isUnclosedStr e) =
      [⟨1, 5, "Unclosed string (single quote)", Severity.error⟩] := by
  obtain ⟨k, hk, hF⟩ :=
    (unclosed_string_findings ⟨['x', ' ', '=', ' ', '\'', 'a', 'b', 'c']⟩ 1
        (by decide) (by decide) (by decide)).2.1
      ⟨by decide, by decide, by decide⟩
  have h4 : lastIdxOf '\''
      (lineAt ⟨['x', ' ', '=', ' ', '\'', 'a', 'b', 'c']⟩ 1) = some 4 := by
    decide
  rw [hk] at h4
  injection h4 with hk4
  subst hk4
  exact ⟨hk, hF⟩

/-! ## C9 — position invariants of every validator finding -/

theorem getLastD_cons_ne {α : Type} {l : List α} (h : l ≠ []) (a d : α) :
    (a :: l).getLastD d = l.getLastD d := by
  cases l with
  | nil => exact absurd rfl h
  | cons x xs => simp [List.getLastD_cons]

theorem splitOnNl_take_length_le (cs : List Char) (pos : Nat) :
    (splitOnNl (cs.take pos)).length ≤ (splitOnNl cs).length := by
  rw [splitOnNl_length, splitOnNl_length]
  have := (List.take_sublist pos cs).count_le '\n'
  omega

theorem splitOnNl_take_last_le (cs : List Char) : ∀ pos : Nat,
    ((splitOnNl (cs.take pos)).getLastD []).length ≤
      ((splitOnNl cs).getD ((splitOnNl (cs.take pos)).length - 1) []).length := by
  induction cs with
  | nil =>
    intro pos
    simp [splitOnNl]
  | cons c rest ih =>
    intro pos
    cases pos with
    | zero => simp [splitOnNl]
    | succ p =>
      rw [List.take_succ_cons]
      by_cases hc : c = '\n'
      · subst hc
        have e1 : ∀ x : List Char, splitOnNl ('\n' :: x) = [] :: splitOnNl x :=
          fun x => by simp [splitOnNl]
        rw [e1, e1]
        have hne := splitOnNl_ne_nil (rest.take p)
        rw [getLastD_cons_ne hne]
        have hlen : 1 ≤ (splitOnNl (rest.take p)).length :=
          List.length_pos.mpr hne
        have hidx : ([] :: splitOnNl (rest.take p)).length - 1 =
            ((splitOnNl (rest.take p)).length - 1) + 1 := by
          simp only [List.length_cons]
          omega
        rw [hidx, List.getD_cons_succ]
        exact ih p
      · have e2 : ∀ x : List Char, splitOnNl (c :: x) =
            (c :: (splitOnNl x).headD []) :: (splitOnNl x).tail :=
          fun x => by simp [splitOnNl, hc]
        rw [e2, e2]
        obtain ⟨s0, S', hS⟩ :=
          List.exists_cons_of_ne_nil (splitOnNl_ne_nil (rest.take p))
        obtain ⟨t0, T', hT⟩ :=
          List.exists_cons_of_ne_nil (splitOnNl_ne_nil rest)
        have ihp := ih p
        rw [hS, hT] at ihp ⊢
        simp only [List.headD_cons, List.tail_cons]
        have hidx : ((c :: s0) :: S').length - 1 = S'.length := by simp
        rw [hidx]
        cases S' with
        | nil =>
          simp only [List.getLastD_cons, List.getLastD_nil, List.length_nil,
            List.getD_cons_zero]
          simp only [List.getLastD_cons, List.getLastD_nil,
            List.length_cons, List.length_nil, Nat.add_sub_cancel,
            List.getD_cons_zero] at ihp
          simp only [List.length_cons]
          omega
        | cons s1 S'' =>
          simp only [List.getLastD_cons, List.length_cons]
          simp only [List.getLastD_cons, List.length_cons,
            Nat.add_sub_cancel, List.getD_cons_succ] at ihp
          rw [List.getD_cons_succ]
          exact ihp

theorem trimL_ne_nil {l : List Char} (h : trimL l ≠ []) : l ≠ [] := by
  intro hl
  subst hl
  exact h rfl

theorem cssSemicolonWarn_mem {n : Nat} {d : Int} {l : List Char}
    {e : ValidationError} (he : e ∈ cssSemicolonWarn n d l) :
    e.line = n ∧ 1 ≤ e.column ∧ e.column ≤ l.length + 1 := by
  simp only [cssSemicolonWarn] at he
  split_ifs at he with h
  · simp only [List.mem_singleton] at he
    subst he
    simp only [Bool.and_eq_true] at h
    have hne : trimL l ≠ [] := by
      have h1 := h.1.1.1.1.1.1.1.1
      simp only [Bool.not_eq_true'] at h1
      intro hx
      rw [hx] at h1
      simp at h1
    have hlen : 0 < l.length := List.length_pos.mpr (trimL_ne_nil hne)
    exact ⟨rfl, hlen, Nat.le_succ _⟩
  · simp at he

theorem cssGo_mem {lines : List (List Char)} : ∀ {i : Nat} {depth : Int}
    {e : ValidationError}, 0 ≤ depth → e ∈ (cssGo i depth lines).1 →
    ∃ j, j < lines.length ∧ e.line = i + j + 1 ∧ 1 ≤ e.column ∧
      e.column ≤ (lines.getD j []).length + 1 := by
  induction lines with
  | nil =>
    intro i depth e _ he
    simp [cssGo] at he
  | cons l rest ih =>
    intro i depth e hdep he
    by_cases hd : depth + netDepth '{' '}' l < 0
    · simp only [cssGo, if_pos hd, List.mem_append] at he
      rcases he with (h | h) | h
      · simp only [List.mem_singleton] at h
        subst h
        have hnd : netDepth '{' '}' l < 0 := by omega
        have hb := lastIdxPlus1_bounds (netDepth_neg_mem hnd)
        exact ⟨0, by simp, rfl, hb.1,
          by rw [List.getD_cons_zero]; exact Nat.le_succ_of_le hb.2⟩
      · have hw := cssSemicolonWarn_mem h
        exact ⟨0, by simp, hw.1, hw.2.1,
          by rw [List.getD_cons_zero]; exact hw.2.2⟩
      · obtain ⟨j, hj, hl, hc1, hc2⟩ := ih (by omega : (0:Int) ≤ 0) h
        refine ⟨j + 1, by simpa using hj, by omega, hc1, ?_⟩
        rw [List.getD_cons_succ]
        exact hc2
    · simp only [cssGo, if_neg hd, List.mem_append] at he
      rcases he with (h | h) | h
      · simp at h
      · have hw := cssSemicolonWarn_mem h
        exact ⟨0, by simp, hw.1, hw.2.1,
          by rw [List.getD_cons_zero]; exact hw.2.2⟩
      · obtain ⟨j, hj, hl, hc1, hc2⟩ :=
          ih (by omega : (0:Int) ≤ depth + netDepth '{' '}' l) h
        refine ⟨j + 1, by simpa using hj, by omega, hc1, ?_⟩
        rw [List.getD_cons_succ]
        exact hc2

/-- **C9.** Every finding produced by `validateJSON` (for any parse
outcome), `validatePython` or `validateCSS` has a 1-based line within the
text's line count, a column of at least 1, and a column never exceeding the
length of the line it refers to plus one. -/
theorem findings_position_invariant (code : String)
    (pe : Option JsonParseError) :
    (∀ e ∈ validateJSON pe code,
      1 ≤ e.line ∧ e.line ≤ (splitOnNl code.data).length ∧
        1 ≤ e.column ∧ e.column ≤ (lineAt code e.line).length + 1) ∧
    (∀ e ∈ validatePython code,
      1 ≤ e.line ∧ e.line ≤ (splitOnNl code.data).length ∧
        1 ≤ e.column ∧ e.column ≤ (lineAt code e.line).length + 1) ∧
    (∀ e ∈ validateCSS code,
      1 ≤ e.line ∧ e.line ≤ (splitOnNl code.data).length ∧
        1 ≤ e.column ∧ e.column ≤ (lineAt code e.line).length + 1) := by
  refine ⟨?_, ?_, ?_⟩
  · intro e he
    cases pe with
    | none => simp [validateJSON] at he
    | some err =>
      cases hpos : err.position with
      | some pos =>
        simp only [validateJSON, hpos, List.mem_singleton] at he
        subst he
        have hne := splitOnNl_ne_nil (code.data.take pos)
        have h1 : 1 ≤ (splitOnNl (code.data.take pos)).length :=
          List.length_pos.mpr hne
        have h2 := splitOnNl_take_length_le code.data pos
        have h3 := splitOnNl_take_last_le code.data pos
        exact ⟨h1, h2, Nat.succ_le_succ (Nat.zero_le _),
          Nat.succ_le_succ h3⟩
      | none =>
        simp only [validateJSON, hpos, List.mem_singleton] at he
        subst he
        exact ⟨le_refl 1,
          List.length_pos.mpr (splitOnNl_ne_nil code.data),
          le_refl 1, Nat.succ_le_succ (Nat.zero_le _)⟩
  · intro e he
    obtain ⟨j, hj, hl, hm⟩ := pyGo_mem (i := 0) he
    have hb := pyLineErrors_mem hm
    refine ⟨by omega, by omega, hb.2.1, ?_⟩
    have hAt : lineAt code e.line = (splitOnNl code.data).getD j [] := by
      unfold lineAt
      have : e.line - 1 = j := by omega
      rw [this]
    rw [hAt]
    exact hb.2.2
  · intro e he
    simp only [validateCSS, List.mem_append] at he
    rcases he with h | h
    · obtain ⟨j, hj, hl, hc1, hc2⟩ := cssGo_mem (by omega : (0:Int) ≤ 0) h
      refine ⟨by omega, by omega, hc1, ?_⟩
      have hAt : lineAt code e.line = (splitOnNl code.data).getD j [] := by
        unfold lineAt
        have : e.line - 1 = j := by omega
        rw [this]
      rw [hAt]
      exact hc2
    · split_ifs at h with hp
      · simp only [List.mem_singleton] at h
        subst h
        exact ⟨List.length_pos.mpr (splitOnNl_ne_nil code.data),
          le_refl _, le_refl 1, Nat.succ_le_succ (Nat.zero_le _)⟩
      · simp at h

/-- Witness for C9 at the residual-depth error of `validateCSS "a {"`:
line 1 of 1, column 1, within the line length plus one. -/
theorem findings_position_invariant_witness :
    1 ≤ (⟨1, 1, "1 unclosed brace(s)", Severity.error⟩ :
        ValidationError).line ∧
    (⟨1, 1, "1 unclosed brace(s)", Severity.error⟩ :
        ValidationError).line ≤ (splitOnNl ("a \x7b").data).length ∧
    1 ≤ (⟨1, 1, "1 unclosed brace(s)", Severity.error⟩ :
        ValidationError).column ∧
    (⟨1, 1, "1 unclosed brace(s)", Severity.error⟩ :
        ValidationError).column ≤
      (lineAt "a \x7b"
        (⟨1, 1, "1 unclosed brace(s)", Severity.error⟩ :
          ValidationError).line).length + 1 :=
  (findings_position_invariant "a \x7b" none).2.2
    ⟨1, 1, "1 unclosed brace(s)", Severity.error⟩ (by decide)

/-! ## C1/C3 — the content classifier.

The proofs below relate the score map built by `detectLanguage` (a JavaScript
`Map` in insertion order) to the spec-side per-id totals, maximum and
tie-break, over an arbitrary signature list. -/

theorem sigScore_foldl (test : String → Nat → Bool) (name : String) (w : Nat) :
    ∀ (ps : List Nat) (a : Nat),
      ps.foldl (fun s p => if test name p then s + w else s) a =
        a + w * (ps.filter (test name)).length := by
  intro ps
  induction ps with
  | nil => intro a; simp
  | cons p rest ih =>
    intro a
    cases hp : test name p with
    | true =>
      simp only [List.foldl_cons, List.filter_cons, hp, if_true,
        List.length_cons]
      rw [ih]
      ring
    | false =>
      simp only [List.foldl_cons, List.filter_cons, hp, Bool.false_eq_true,
        if_false]
      rw [ih]

theorem sigScore_eq (test : String → Nat → Bool) (lang : LanguagePattern) :
    sigScore test lang = lang.weight * sigMatchCount test lang := by
  unfold sigScore sigMatchCount
  rw [sigScore_foldl]
  simp

theorem totalOver_eq_sum (test : String → Nat → Bool) (id : String) :
    ∀ sigs : List LanguagePattern,
      totalOver test sigs id =
        ((sigs.filter (fun lang => lang.monacoLanguage == id)).map
          (fun lang => lang.weight * sigMatchCount test lang)).sum := by
  intro sigs
  induction sigs with
  | nil => simp [totalOver]
  | cons sig rest ih =>
    by_cases hid : sig.monacoLanguage = id
    · simp only [totalOver, if_pos hid, List.filter_cons, hid, beq_self_eq_true,
        if_true, List.map_cons, List.sum_cons, ih, sigScore_eq]
    · have hbeq : (sig.monacoLanguage == id) = false :=
        beq_eq_false_iff_ne.mpr hid
      simp only [totalOver, if_neg hid, List.filter_cons, hbeq,
        Bool.false_eq_true, if_false, ih, Nat.zero_add]

theorem totalOver_eq_specTotal (test : String → Nat → Bool) (id : String) :
    totalOver test langPatterns id = specTotal test id := by
  rw [totalOver_eq_sum]
  rfl

theorem totalOver_pos (test : String → Nat → Bool) {id : String} :
    ∀ {sigs : List LanguagePattern}, 0 < totalOver test sigs id →
      ∃ lang ∈ sigs, lang.monacoLanguage = id ∧ 0 < sigScore test lang := by
  intro sigs
  induction sigs with
  | nil => intro h; simp [totalOver] at h
  | cons sig rest ih =>
    intro h
    simp only [totalOver] at h
    by_cases hid : sig.monacoLanguage = id
    · rw [if_pos hid] at h
      by_cases hs : 0 < sigScore test sig
      · exact ⟨sig, List.mem_cons_self _ _, hid, hs⟩
      · have h0 : sigScore test sig = 0 := by omega
        rw [h0, Nat.zero_add] at h
        obtain ⟨lang, hm, h1, h2⟩ := ih h
        exact ⟨lang, List.mem_cons_of_mem _ hm, h1, h2⟩
    · rw [if_neg hid, Nat.zero_add] at h
      obtain ⟨lang, hm, h1, h2⟩ := ih h
      exact ⟨lang, List.mem_cons_of_mem _ hm, h1, h2⟩

theorem totalOver_zero (test : String → Nat → Bool) {id : String} :
    ∀ {sigs : List LanguagePattern},
      (∀ lang ∈ sigs, lang.monacoLanguage = id → sigScore test lang = 0) →
      totalOver test sigs id = 0 := by
  intro sigs
  induction sigs with
  | nil => intro _; rfl
  | cons sig rest ih =>
    intro h
    simp only [totalOver]
    rw [ih (fun lang hm => h lang (List.mem_cons_of_mem _ hm))]
    by_cases hid : sig.monacoLanguage = id
    · rw [if_pos hid, h sig (List.mem_cons_self _ _) hid]
    · rw [if_neg hid]

theorem totalOver_pos_of_contrib (test : String → Nat → Bool) {id : String}
    {lang : LanguagePattern} :
    ∀ {sigs : List LanguagePattern}, lang ∈ sigs →
      lang.monacoLanguage = id → 0 < sigScore test lang →
      0 < totalOver test sigs id := by
  intro sigs
  induction sigs with
  | nil => intro h; simp at h
  | cons sig rest ih =>
    intro hm hid hs
    simp only [totalOver]
    rcases List.mem_cons.mp hm with rfl | hmem
    · rw [if_pos hid]
      omega
    · have := ih hmem hid hs
      omega

/-! ### The JavaScript `Map` as an insertion-ordered association list -/

theorem mapGetD_not_mem {m : List (String × Nat)} {k : String} {d : Nat}
    (h : k ∉ m.map Prod.fst) : mapGetD m k d = d := by
  induction m with
  | nil => rfl
  | cons p rest ih =>
    simp only [List.map_cons, List.mem_cons] at h
    push_neg at h
    simp only [mapGetD]
    rw [if_neg h.1]
    exact ih h.2

theorem mapSet_not_mem {m : List (String × Nat)} {k : String} (v : Nat)
    (h : k ∉ m.map Prod.fst) : mapSet m k v = m ++ [(k, v)] := by
  induction m with
  | nil => rfl
  | cons p rest ih =>
    simp only [List.map_cons, List.mem_cons] at h
    push_neg at h
    simp only [mapSet]
    rw [if_neg (fun hx => h.1 hx.symm)]
    rw [ih h.2]
    rfl

theorem map_id_of_ne {m : List (String × Nat)} {k : String} {s : Nat}
    (h : ∀ p ∈ m, p.1 ≠ k) :
    m.map (fun p => if p.1 = k then (p.1, p.2 + s) else p) = m := by
  induction m with
  | nil => rfl
  | cons p rest ih =>
    simp only [List.map_cons]
    rw [if_neg (h p (List.mem_cons_self _ _))]
    rw [ih (fun q hq => h q (List.mem_cons_of_mem _ hq))]

theorem mapSet_mem_map {m : List (String × Nat)} {k : String} {s : Nat}
    (hnod : (m.map Prod.fst).Nodup) (h : k ∈ m.map Prod.fst) :
    mapSet m k (mapGetD m k 0 + s) =
      m.map (fun p => if p.1 = k then (p.1, p.2 + s) else p) := by
  induction m with
  | nil => simp at h
  | cons p rest ih =>
    obtain ⟨p1, p2⟩ := p
    simp only [List.map_cons, List.nodup_cons] at hnod
    by_cases hpk : p1 = k
    · subst hpk
      have hget : mapGetD ((p1, p2) :: rest) p1 0 = p2 := by
        simp [mapGetD]
      have hset : mapSet ((p1, p2) :: rest) p1 (p2 + s) =
          (p1, p2 + s) :: rest := by
        simp [mapSet]
      rw [hget, hset]
      have hrest : ∀ q ∈ rest, q.1 ≠ p1 := by
        intro q hq hqk
        have hq1 := List.mem_map_of_mem Prod.fst hq
        rw [hqk] at hq1
        exact hnod.1 hq1
      rw [List.map_cons, map_id_of_ne hrest]
      congr 1
      simp
    · have hmem : k ∈ rest.map Prod.fst := by
        simp only [List.map_cons, List.mem_cons] at h
        rcases h with h | h
        · exact absurd h.symm hpk
        · exact h
      have hget : mapGetD ((p1, p2) :: rest) k 0 = mapGetD rest k 0 := by
        simp only [mapGetD]
        rw [if_neg (fun hx => hpk hx.symm)]
      have hset : mapSet ((p1, p2) :: rest) k (mapGetD rest k 0 + s) =
          (p1, p2) :: mapSet rest k (mapGetD rest k 0 + s) := by
        simp only [mapSet]
        rw [if_neg hpk]
      rw [hget, hset, List.map_cons]
      congr 1
      · simp [hpk]
      · exact ih hnod.2 hmem

theorem keys_mapSet_mem {m : List (String × Nat)} {k : String} (v : Nat)
    (h : k ∈ m.map Prod.fst) :
    (mapSet m k v).map Prod.fst = m.map Prod.fst := by
  induction m with
  | nil => simp at h
  | cons p rest ih =>
    obtain ⟨p1, p2⟩ := p
    by_cases hpk : p1 = k
    · subst hpk
      have hset : mapSet ((p1, p2) :: rest) p1 v = (p1, v) :: rest := by
        simp [mapSet]
      rw [hset]
      simp
    · have hmem : k ∈ rest.map Prod.fst := by
        simp only [List.map_cons, List.mem_cons] at h
        rcases h with h | h
        · exact absurd h.symm hpk
        · exact h
      have hset : mapSet ((p1, p2) :: rest) k v =
          (p1, p2) :: mapSet rest k v := by
        simp only [mapSet]
        rw [if_neg hpk]
      rw [hset, List.map_cons, List.map_cons, ih hmem]

theorem newIds_mem (test : String → Nat → Bool) {id : String} :
    ∀ (sigs : List LanguagePattern) (seen : List String),
      id ∈ newIds test sigs seen ↔
        id ∉ seen ∧ ∃ lang ∈ sigs, lang.monacoLanguage = id ∧
          0 < sigScore test lang := by
  intro sigs
  induction sigs with
  | nil => intro seen; simp [newIds]
  | cons sig rest ih =>
    intro seen
    simp only [newIds]
    by_cases hsc : 0 < sigScore test sig
    · rw [if_pos hsc]
      by_cases hseen : sig.monacoLanguage ∈ seen
      · rw [if_pos hseen, ih seen]
        constructor
        · rintro ⟨h1, lang, hm, h2, h3⟩
          exact ⟨h1, lang, List.mem_cons_of_mem _ hm, h2, h3⟩
        · rintro ⟨h1, lang, hm, h2, h3⟩
          rcases List.mem_cons.mp hm with rfl | hmem
          · exact absurd (h2 ▸ hseen) (h2 ▸ fun hx => h1 (h2 ▸ hx))
          · exact ⟨h1, lang, hmem, h2, h3⟩
      · rw [if_neg hseen]
        constructor
        · intro h
          rcases List.mem_cons.mp h with rfl | hmem
          · exact ⟨hseen, sig, List.mem_cons_self _ _, rfl, hsc⟩
          · obtain ⟨h1, lang, hm, h2, h3⟩ := (ih _).mp hmem
            simp only [List.mem_cons] at h1
            push_neg at h1
            exact ⟨h1.2, lang, List.mem_cons_of_mem _ hm, h2, h3⟩
        · rintro ⟨h1, lang, hm, h2, h3⟩
          rcases List.mem_cons.mp hm with rfl | hmem
          · rw [← h2]
            exact List.mem_cons_self _ _
          · by_cases hid : id = sig.monacoLanguage
            · rw [hid]
              exact List.mem_cons_self _ _
            · refine List.mem_cons_of_mem _ ((ih _).mpr ⟨?_, lang, hmem, h2, h3⟩)
              simp only [List.mem_cons]
              push_neg
              exact ⟨hid, h1⟩
    · rw [if_neg hsc, ih seen]
      constructor
      · rintro ⟨h1, lang, hm, h2, h3⟩
        exact ⟨h1, lang, List.mem_cons_of_mem _ hm, h2, h3⟩
      · rintro ⟨h1, lang, hm, h2, h3⟩
        rcases List.mem_cons.mp hm with rfl | hmem
        · exact absurd h3 hsc
        · exact ⟨h1, lang, hmem, h2, h3⟩

theorem newIds_seen_congr (test : String → Nat → Bool) :
    ∀ (sigs : List LanguagePattern) (s1 s2 : List String),
      (∀ x, x ∈ s1 ↔ x ∈ s2) → newIds test sigs s1 = newIds test sigs s2 := by
  intro sigs
  induction sigs with
  | nil => intro s1 s2 _; rfl
  | cons sig rest ih =>
    intro s1 s2 hiff
    simp only [newIds]
    by_cases hsc : 0 < sigScore test sig
    · rw [if_pos hsc, if_pos hsc]
      by_cases hseen : sig.monacoLanguage ∈ s1
      · rw [if_pos hseen, if_pos ((hiff _).mp hseen), ih s1 s2 hiff]
      · rw [if_neg hseen, if_neg (fun hx => hseen ((hiff _).mpr hx))]
        rw [ih (sig.monacoLanguage :: s1) (sig.monacoLanguage :: s2)]
        intro x
        simp only [List.mem_cons]
        rw [hiff x]
    · rw [if_neg hsc, if_neg hsc, ih s1 s2 hiff]

theorem newIds_nodup (test : String → Nat → Bool) :
    ∀ (sigs : List LanguagePattern) (seen : List String),
      (newIds test sigs seen).Nodup := by
  intro sigs
  induction sigs with
  | nil => intro seen; simp [newIds]
  | cons sig rest ih =>
    intro seen
    simp only [newIds]
    by_cases hsc : 0 < sigScore test sig
    · rw [if_pos hsc]
      by_cases hseen : sig.monacoLanguage ∈ seen
      · rw [if_pos hseen]
        exact ih seen
      · rw [if_neg hseen]
        refine List.nodup_cons.mpr ⟨?_, ih _⟩
        intro hmem
        have := ((newIds_mem test rest _).mp hmem).1
        exact this (List.mem_cons_self _ _)
    · rw [if_neg hsc]
      exact ih seen

/-- The score map built by the signature loop, over any starting map with
duplicate-free keys: existing entries get their id's total added, and the
ids newly receiving a positive score are appended in order of their first
contributing signature, each carrying its total. -/
theorem buildScoresFrom_entries (test : String → Nat → Bool) :
    ∀ (sigs : List LanguagePattern) (m : List (String × Nat)),
      (m.map Prod.fst).Nodup →
      buildScoresFrom test m sigs =
        m.map (fun p => (p.1, p.2 + totalOver test sigs p.1)) ++
          (newIds test sigs (m.map Prod.fst)).map
            (fun id => (id, totalOver test sigs id)) := by
  intro sigs
  induction sigs with
  | nil =>
    intro m _
    simp [buildScoresFrom, newIds, totalOver]
  | cons sig rest ih =>
    intro m hnod
    simp only [buildScoresFrom, newIds]
    by_cases hsc : 0 < sigScore test sig
    · rw [if_pos hsc, if_pos hsc]
      by_cases hseen : sig.monacoLanguage ∈ m.map Prod.fst
      · rw [if_pos hseen]
        rw [mapSet_mem_map hnod hseen]
        have hkeys : ((m.map (fun p =>
            if p.1 = sig.monacoLanguage then (p.1, p.2 + sigScore test sig)
            else p)).map Prod.fst) = m.map Prod.fst := by
          rw [List.map_map]
          apply List.map_congr_left
          intro p _
          by_cases hp : p.1 = sig.monacoLanguage
          · simp [hp]
          · simp [hp]
        rw [ih _ (by rw [hkeys]; exact hnod)]
        rw [hkeys]
        congr 1
        · rw [List.map_map]
          apply List.map_congr_left
          intro p hp
          simp only [Function.comp_apply]
          by_cases hpk : p.1 = sig.monacoLanguage
          · rw [if_pos hpk]
            simp only [totalOver, Prod.mk.injEq]
            refine ⟨trivial, ?_⟩
            rw [if_pos hpk.symm]
            omega
          · rw [if_neg hpk]
            have hne2 : ¬ sig.monacoLanguage = p.1 := fun hx => hpk hx.symm
            simp only [totalOver, Prod.mk.injEq]
            refine ⟨trivial, ?_⟩
            rw [if_neg hne2]
            omega
        · apply List.map_congr_left
          intro id hid
          have hne : ¬ sig.monacoLanguage = id := by
            intro hx
            have hidm : id ∈ m.map Prod.fst := by
              rw [← hx]
              exact hseen
            exact ((newIds_mem test rest _).mp hid).1 hidm
          simp only [totalOver, Prod.mk.injEq]
          refine ⟨trivial, ?_⟩
          rw [if_neg hne]
          omega
      · rw [if_neg hseen]
        rw [mapGetD_not_mem hseen, Nat.zero_add, mapSet_not_mem _ hseen]
        have hkeys : ((m ++ [(sig.monacoLanguage, sigScore test sig)]).map
            Prod.fst) = m.map Prod.fst ++ [sig.monacoLanguage] := by
          simp
        have hnod2 : (((m ++ [(sig.monacoLanguage, sigScore test sig)]).map
            Prod.fst)).Nodup := by
          rw [hkeys]
          simp only [List.nodup_append, List.nodup_cons]
          refine ⟨hnod, by simp, ?_⟩
          intro a ha hx
          rw [List.mem_singleton] at hx
          rw [hx] at ha
          exact hseen ha
        rw [ih _ hnod2]
        rw [hkeys]
        rw [newIds_seen_congr test rest (m.map Prod.fst ++ [sig.monacoLanguage])
          (sig.monacoLanguage :: m.map Prod.fst)
          (by intro x; simp [List.mem_append, or_comm])]
        simp only [List.map_append, List.map_cons, List.map_nil]
        rw [List.append_assoc]
        congr 1
        · apply List.map_congr_left
          intro p hp
          have hne : ¬ sig.monacoLanguage = p.1 := by
            intro hx
            have hm1 := List.mem_map_of_mem Prod.fst hp
            rw [← hx] at hm1
            exact hseen hm1
          simp only [totalOver, Prod.mk.injEq]
          refine ⟨trivial, ?_⟩
          rw [if_neg hne]
          omega
        · simp only [List.singleton_append, List.cons.injEq]
          constructor
          · simp only [totalOver, Prod.mk.injEq]
            refine ⟨trivial, ?_⟩
            simp
          · apply List.map_congr_left
            intro id hid
            have hne : ¬ sig.monacoLanguage = id := by
              intro hx
              have := ((newIds_mem test rest _).mp hid).1
              rw [← hx] at this
              exact this (List.mem_cons_self _ _)
            simp only [totalOver, Prod.mk.injEq]
            refine ⟨trivial, ?_⟩
            rw [if_neg hne]
            omega
    · rw [if_neg hsc, if_neg hsc]
      have hs0 : sigScore test sig = 0 := by omega
      rw [ih _ hnod]
      congr 1
      · apply List.map_congr_left
        intro p _
        simp only [totalOver, hs0, ite_self, Prod.mk.injEq]
        exact ⟨trivial, by omega⟩
      · apply List.map_congr_left
        intro id _
        simp only [totalOver, hs0, ite_self, Prod.mk.injEq]
        exact ⟨trivial, by omega⟩

theorem buildScores_entries (test : String → Nat → Bool) :
    buildScores test =
      (newIds test langPatterns []).map
        (fun id => (id, totalOver test langPatterns id)) := by
  have h := buildScoresFrom_entries test langPatterns [] (by simp)
  simpa [buildScores] using h

/-! ### Generic facts about running maxima -/

theorem le_foldl_maxf {A : Type} (f : A → Nat) (l : List A) : ∀ b : Nat,
    b ≤ l.foldl (fun a x => max a (f x)) b := by
  induction l with
  | nil => intro b; simp
  | cons x rest ih =>
    intro b
    simp only [List.foldl_cons]
    exact le_trans (le_max_left b (f x)) (ih _)

theorem mem_le_foldl_maxf {A : Type} (f : A → Nat) {l : List A} {x : A}
    (hx : x ∈ l) : ∀ b : Nat, f x ≤ l.foldl (fun a x => max a (f x)) b := by
  induction l with
  | nil => simp at hx
  | cons y rest ih =>
    intro b
    simp only [List.foldl_cons]
    rcases List.mem_cons.mp hx with rfl | hmem
    · exact le_trans (le_max_right b (f x)) (le_foldl_maxf f rest _)
    · exact ih hmem _

theorem foldl_maxf_le {A : Type} (f : A → Nat) {l : List A} {c : Nat}
    (h : ∀ x ∈ l, f x ≤ c) : ∀ {b : Nat}, b ≤ c →
      l.foldl (fun a x => max a (f x)) b ≤ c := by
  induction l with
  | nil => intro b hb; simpa using hb
  | cons x rest ih =>
    intro b hb
    simp only [List.foldl_cons]
    refine ih (fun y hy => h y (List.mem_cons_of_mem _ hy)) ?_
    have := h x (List.mem_cons_self _ _)
    omega

theorem le_foldl_max_pairs (l : List (String × Nat)) (b : Nat) :
    b ≤ l.foldl (fun a kv => max a kv.2) b :=
  le_foldl_maxf Prod.snd l b

/-! ### The maximum scan over the score map -/

theorem pickMaxFrom_char :
    ∀ (l : List (String × Nat)) (m0 : Nat) (k0 : String),
      (pickMaxFrom (m0, k0) l).1 =
          l.foldl (fun a kv => max a kv.2) m0 ∧
        ((pickMaxFrom (m0, k0) l).1 ≤ m0 →
          (pickMaxFrom (m0, k0) l).2 = k0) ∧
        (m0 < (pickMaxFrom (m0, k0) l).1 →
          ∃ pre kv post, l = pre ++ kv :: post ∧
            kv.2 = (pickMaxFrom (m0, k0) l).1 ∧
            (pickMaxFrom (m0, k0) l).2 = kv.1 ∧
            ∀ kv' ∈ pre, kv'.2 < (pickMaxFrom (m0, k0) l).1) := by
  intro l
  induction l with
  | nil =>
    intro m0 k0
    exact ⟨rfl, fun _ => rfl, fun h => absurd h (by simp [pickMaxFrom])⟩
  | cons kv rest ih =>
    intro m0 k0
    by_cases hlt : m0 < kv.2
    · have hstep : pickMaxFrom (m0, k0) (kv :: rest) =
          pickMaxFrom (kv.2, kv.1) rest := by
        simp [pickMaxFrom, hlt]
      obtain ⟨ih1, ih2, ih3⟩ := ih kv.2 kv.1
      have hfst : (pickMaxFrom (m0, k0) (kv :: rest)).1 =
          (kv :: rest).foldl (fun a kv => max a kv.2) m0 := by
        rw [hstep, ih1, List.foldl_cons]
        have : max m0 kv.2 = kv.2 := by omega
        rw [this]
      have hbig : kv.2 ≤ (pickMaxFrom (kv.2, kv.1) rest).1 := by
        rw [ih1]
        exact le_foldl_max_pairs rest kv.2
      refine ⟨hfst, ?_, ?_⟩
      · intro hle
        rw [hstep] at hle ⊢
        omega
      · intro _
        rw [hstep]
        by_cases hr : kv.2 < (pickMaxFrom (kv.2, kv.1) rest).1
        · obtain ⟨pre, kv', post, h1, h2, h3, h4⟩ := ih3 hr
          exact ⟨kv :: pre, kv', post, by rw [h1, List.cons_append], h2, h3, by
            intro q hq
            rcases List.mem_cons.mp hq with rfl | hmem
            · omega
            · exact h4 q hmem⟩
        · have heq : (pickMaxFrom (kv.2, kv.1) rest).1 = kv.2 := by omega
          exact ⟨[], kv, rest, rfl, heq.symm, ih2 (by omega), by simp⟩
    · have hstep : pickMaxFrom (m0, k0) (kv :: rest) =
          pickMaxFrom (m0, k0) rest := by
        simp [pickMaxFrom, hlt]
      obtain ⟨ih1, ih2, ih3⟩ := ih m0 k0
      have hfst : (pickMaxFrom (m0, k0) (kv :: rest)).1 =
          (kv :: rest).foldl (fun a kv => max a kv.2) m0 := by
        rw [hstep, ih1, List.foldl_cons]
        have : max m0 kv.2 = m0 := by omega
        rw [this]
      refine ⟨hfst, ?_, ?_⟩
      · intro hle
        rw [hstep] at hle ⊢
        exact ih2 hle
      · intro hgt
        rw [hstep] at hgt ⊢
        obtain ⟨pre, kv', post, h1, h2, h3, h4⟩ := ih3 hgt
        exact ⟨kv :: pre, kv', post, by rw [h1, List.cons_append], h2, h3, by
          intro q hq
          rcases List.mem_cons.mp hq with rfl | hmem
          · omega
          · exact h4 q hmem⟩

/-- Where an id sits in `newIds`, seen from the signature list: the id's
first contributing signature, with every earlier contributing signature
belonging to an already-seen id or to an id listed strictly earlier. -/
theorem newIds_decomp_ord (test : String → Nat → Bool) :
    ∀ (sigs : List LanguagePattern) (seen A B : List String) (w : String),
      newIds test sigs seen = A ++ w :: B →
      ∃ pre sigw post, sigs = pre ++ sigw :: post ∧
        sigw.monacoLanguage = w ∧ 0 < sigScore test sigw ∧
        ∀ sig ∈ pre, 0 < sigScore test sig →
          sig.monacoLanguage ∈ seen ∨ sig.monacoLanguage ∈ A := by
  intro sigs
  induction sigs with
  | nil =>
    intro seen A B w h
    rw [newIds] at h
    rcases A with _ | ⟨a, A'⟩ <;> simp at h
  | cons sig rest ih =>
    intro seen A B w h
    simp only [newIds] at h
    by_cases hsc : 0 < sigScore test sig
    · by_cases hseen : sig.monacoLanguage ∈ seen
      · rw [if_pos hsc, if_pos hseen] at h
        obtain ⟨pre, sigw, post, h1, h2, h3, h4⟩ := ih seen A B w h
        refine ⟨sig :: pre, sigw, post, by rw [h1, List.cons_append], h2, h3,
          ?_⟩
        intro s hs hscore
        rcases List.mem_cons.mp hs with rfl | hmem
        · exact Or.inl hseen
        · exact h4 s hmem hscore
      · rw [if_pos hsc, if_neg hseen] at h
        cases A with
        | nil =>
          simp only [List.nil_append] at h
          injection h with hw htl
          exact ⟨[], sig, rest, rfl, hw, hsc, by intro s hs; simp at hs⟩
        | cons a A' =>
          simp only [List.cons_append] at h
          injection h with ha htl
          obtain ⟨pre, sigw, post, h1, h2, h3, h4⟩ :=
            ih (sig.monacoLanguage :: seen) A' B w htl
          refine ⟨sig :: pre, sigw, post, by rw [h1, List.cons_append], h2,
            h3, ?_⟩
          intro s hs hscore
          rcases List.mem_cons.mp hs with rfl | hmem
          · right
            rw [ha]
            exact List.mem_cons_self _ _
          · rcases h4 s hmem hscore with hl | hr
            · rcases List.mem_cons.mp hl with heq | hin
              · right
                rw [heq, ha]
                exact List.mem_cons_self _ _
              · exact Or.inl hin
            · exact Or.inr (List.mem_cons_of_mem _ hr)
    · rw [if_neg hsc] at h
      obtain ⟨pre, sigw, post, h1, h2, h3, h4⟩ := ih seen A B w h
      refine ⟨sig :: pre, sigw, post, by rw [h1, List.cons_append], h2, h3,
        ?_⟩
      intro s hs hscore
      rcases List.mem_cons.mp hs with rfl | hmem
      · exact absurd hscore hsc
      · exact h4 s hmem hscore

theorem find_append_first {A : Type} (p : A → Bool) :
    ∀ (pre : List A) (x : A) (post : List A),
      (∀ y ∈ pre, p y = false) → p x = true →
      (pre ++ x :: post).find? p = some x := by
  intro pre
  induction pre with
  | nil =>
    intro x post _ hx
    simp [List.find?, hx]
  | cons y rest ih =>
    intro x post hall hx
    have hy := hall y (List.mem_cons_self _ _)
    simp only [List.cons_append, List.find?, hy]
    exact ih x post (fun z hz => hall z (List.mem_cons_of_mem _ hz)) hx

theorem map_eq_append_cons {A B : Type} (f : A → B) :
    ∀ (l : List A) (A' : List B) (x : B) (B' : List B),
      l.map f = A' ++ x :: B' →
      ∃ pre a post, l = pre ++ a :: post ∧ pre.map f = A' ∧ f a = x ∧
        post.map f = B' := by
  intro l
  induction l with
  | nil =>
    intro A' x B' h
    rcases A' with _ | ⟨b, A''⟩ <;> simp at h
  | cons a rest ih =>
    intro A' x B' h
    cases A' with
    | nil =>
      simp only [List.map_cons, List.nil_append] at h
      injection h with h1 h2
      exact ⟨[], a, rest, rfl, rfl, h1, h2⟩
    | cons b A'' =>
      simp only [List.map_cons, List.cons_append] at h
      injection h with h1 h2
      obtain ⟨pre, a', post, hl, hm, hf, hp⟩ := ih A'' x B' h2
      exact ⟨a :: pre, a', post, by rw [hl, List.cons_append],
        by rw [List.map_cons, hm, h1], hf, hp⟩

theorem scan_fst_eq (test : String → Nat → Bool) :
    (pickMaxFrom (0, "plaintext") (buildScores test)).1 = maxTotal test := by
  have hchar := (pickMaxFrom_char (buildScores test) 0 "plaintext").1
  rw [hchar, buildScores_entries test, List.foldl_map]
  unfold maxTotal
  rw [List.foldl_map]
  have hfun : (fun (a : Nat) (lang : LanguagePattern) =>
      max a (specTotal test lang.monacoLanguage)) =
      (fun a lang =>
        max a (totalOver test langPatterns lang.monacoLanguage)) := by
    funext a lang
    rw [totalOver_eq_specTotal]
  rw [hfun]
  apply Nat.le_antisymm
  · refine foldl_maxf_le _ ?_ (Nat.zero_le _)
    intro id hid
    obtain ⟨_, lang, hm, hidl, hpos⟩ :=
      (newIds_mem test langPatterns []).mp hid
    have hle := mem_le_foldl_maxf
      (fun lang => totalOver test langPatterns lang.monacoLanguage) hm 0
    rw [hidl] at hle
    exact hle
  · refine foldl_maxf_le _ ?_ (Nat.zero_le _)
    intro lang hm
    by_cases hpos : 0 < totalOver test langPatterns lang.monacoLanguage
    · obtain ⟨lang', hm', hid', hsc'⟩ := totalOver_pos test hpos
      have hidA : lang.monacoLanguage ∈ newIds test langPatterns [] :=
        (newIds_mem test langPatterns []).mpr ⟨by simp, lang', hm', hid', hsc'⟩
      exact mem_le_foldl_maxf (fun id => ((id, totalOver test langPatterns id)).2)
        hidA 0
    · have h0 : totalOver test langPatterns lang.monacoLanguage = 0 := by
        omega
      rw [h0]
      exact Nat.zero_le _

theorem mapGetD_map_pair (f : String → Nat) :
    ∀ (A : List String) (id : String),
      (id ∈ A → mapGetD (A.map (fun a => (a, f a))) id 0 = f id) ∧
      (id ∉ A → mapGetD (A.map (fun a => (a, f a))) id 0 = 0) := by
  intro A
  induction A with
  | nil => intro id; exact ⟨by simp, fun _ => rfl⟩
  | cons a rest ih =>
    intro id
    constructor
    · intro h
      simp only [List.map_cons, mapGetD]
      by_cases hia : id = a
      · rw [if_pos hia, hia]
      · rw [if_neg hia]
        refine (ih id).1 ?_
        rcases List.mem_cons.mp h with h | h
        · exact absurd h hia
        · exact h
    · intro h
      simp only [List.mem_cons] at h
      push_neg at h
      simp only [List.map_cons, mapGetD]
      rw [if_neg h.1]
      exact (ih id).2 h.2

theorem buildScores_getD (test : String → Nat → Bool) (id : String) :
    mapGetD (buildScores test) id 0 = specTotal test id := by
  rw [buildScores_entries test, ← totalOver_eq_specTotal]
  by_cases hid : id ∈ newIds test langPatterns []
  · exact (mapGetD_map_pair (fun a => totalOver test langPatterns a)
      (newIds test langPatterns []) id).1 hid
  · rw [(mapGetD_map_pair (fun a => totalOver test langPatterns a)
      (newIds test langPatterns []) id).2 hid]
    have hz : ∀ lang ∈ langPatterns, lang.monacoLanguage = id →
        sigScore test lang = 0 := by
      intro lang hm hidl
      by_contra hs
      exact hid ((newIds_mem test langPatterns []).mpr
        ⟨by simp, lang, hm, hidl, by omega⟩)
    rw [totalOver_zero test hz]

theorem detect_eq_specDetect (test : String → Nat → Bool) (code : String) :
    detectLanguage test code = specDetect test code := by
  unfold detectLanguage specDetect
  by_cases htr : (trimL code.data).isEmpty
  · rw [if_pos htr, if_pos htr]
  · rw [if_neg htr, if_neg htr]
    show (if (pickMaxFrom (0, "plaintext") (buildScores test)).1 < 2 then
        "plaintext"
      else (pickMaxFrom (0, "plaintext") (buildScores test)).2) =
      (if maxTotal test < 2 then "plaintext"
      else match langPatterns.find? (fun lang =>
          decide (0 < sigScore test lang) &&
            (specTotal test lang.monacoLanguage == maxTotal test)) with
        | some lang => lang.monacoLanguage
        | none => "plaintext")
    rw [scan_fst_eq test]
    by_cases hM : maxTotal test < 2
    · rw [if_pos hM, if_pos hM]
    · rw [if_neg hM, if_neg hM]
      have hpos : 0 < maxTotal test := by omega
      have hlt : (0 : Nat) <
          (pickMaxFrom (0, "plaintext") (buildScores test)).1 := by
        rw [scan_fst_eq test]
        exact hpos
      obtain ⟨preE, kv, postE, hdec, hkv2, hwin, hpre⟩ :=
        (pickMaxFrom_char (buildScores test) 0 "plaintext").2.2 hlt
      rw [buildScores_entries test] at hdec
      obtain ⟨Apre, w, Apost, hAeq, hApre, hw, _⟩ :=
        map_eq_append_cons _ _ _ _ _ hdec
      have hw1 : kv.1 = w := by rw [← hw]
      have hw2 : totalOver test langPatterns w = maxTotal test := by
        have hx := hkv2
        rw [scan_fst_eq test] at hx
        rw [← hx, ← hw]
      have hApre_lt : ∀ a ∈ Apre,
          totalOver test langPatterns a < maxTotal test := by
        intro a ha
        have hmem : (a, totalOver test langPatterns a) ∈ preE := by
          rw [← hApre]
          exact List.mem_map_of_mem _ ha
        have hb := hpre _ hmem
        rw [scan_fst_eq test] at hb
        exact hb
      obtain ⟨sigpre, sigw, sigpost, hsig, hsigl, hsigsc, hprev⟩ :=
        newIds_decomp_ord test langPatterns [] Apre Apost w hAeq
      have hfind : langPatterns.find? (fun lang =>
          decide (0 < sigScore test lang) &&
            (specTotal test lang.monacoLanguage == maxTotal test)) =
          some sigw := by
        rw [hsig]
        apply find_append_first
        · intro y hy
          by_cases hys : 0 < sigScore test y
          · rcases hprev y hy hys with hin | hin
            · simp at hin
            · have hlt' := hApre_lt _ hin
              rw [totalOver_eq_specTotal] at hlt'
              have hbeq : (specTotal test y.monacoLanguage ==
                  maxTotal test) = false :=
                beq_eq_false_iff_ne.mpr (by omega)
              simp [hbeq]
          · have hd : decide (0 < sigScore test y) = false := by
              simpa using hys
            simp [hd]
        · have h1 : decide (0 < sigScore test sigw) = true := by
            simpa using hsigsc
          have h2 : (specTotal test sigw.monacoLanguage ==
              maxTotal test) = true := by
            rw [hsigl]
            refine beq_iff_eq.mpr ?_
            rw [← totalOver_eq_specTotal]
            exact hw2
          simp [h1, h2]
      rw [hfind, hwin, hw1]
      exact hsigl.symm

/-! ## C1 and C3 — the classifier claims -/

/-- **C1.** For every matching oracle and every input text,
`detectLanguage` computes, for each canonical id, the total equal to the
sum over the signatures sharing that id of (weight × number of that
signature's patterns matching the text, each pattern counted at most once)
— the built score map answers exactly `specTotal` — and the returned id
agrees with the spec-side classifier `specDetect`: the id with the strict
maximum total, ties resolved in favour of the id whose contributing
signature is declared first, subject to the confidence floor and the
empty-input guard. -/
theorem detect_matches_spec (test : String → Nat → Bool) (code : String) :
    detectLanguage test code = specDetect test code ∧
    ∀ id, mapGetD (buildScores test) id 0 = specTotal test id :=
  ⟨detect_eq_specDetect test code, fun id => buildScores_getD test id⟩

/-- **C3.** Whenever the maximum accumulated per-id total is below the
confidence floor of 2 weight units, `detectLanguage` returns the unknown
sentinel `"plaintext"`. -/
theorem low_score_plaintext (test : String → Nat → Bool) (code : String)
    (h : maxTotal test < 2) : detectLanguage test code = "plaintext" := by
  rw [detect_eq_specDetect]
  unfold specDetect
  by_cases htr : (trimL code.data).isEmpty
  · rw [if_pos htr]
  · rw [if_neg htr]
    show (if maxTotal test < 2 then "plaintext" else _) = "plaintext"
    rw [if_pos h]

/-- Witness for C3: the all-false oracle scores 0 everywhere, below the
floor, so the single-identifier text `"x"` classifies as `"plaintext"`. -/
theorem low_score_plaintext_witness :
    maxTotal (fun _ _ => false) < 2 ∧
    detectLanguage (fun _ _ => false) "x" = "plaintext" :=
  ⟨by decide, low_score_plaintext (fun _ _ => false) "x" (by decide)⟩
